import Mathlib

/-!
Shallow embedding of the ISIR checker engine (`ISIRChecker` in `src/app.py`):
the fetch-parse-diff pipeline `fetch_and_parse`, the natural sort key, the
section/row extraction, grouping for sections C and P, case-metadata
extraction, and the seen-identity set, together with theorems about them.
-/

namespace ISIR

/-! ### String primitives modelling the Python operations used by the code -/

/-- Models Python `s.startswith(pat)` on character lists. -/
def startsWithL : List Char → List Char → Bool
  | _, [] => true
  | [], _ :: _ => false
  | a :: as, b :: bs => a == b && startsWithL as bs

/-- Models Python `pat in hay` (substring test) on character lists. -/
def containsL : List Char → List Char → Bool
  | [], pat => pat.isEmpty
  | a :: as, pat => startsWithL (a :: as) pat || containsL as pat

/-- Models Python `pat in hay` on strings. -/
def strContains (hay pat : String) : Bool := containsL hay.toList pat.toList

/-- Models Python `s.lower()`. -/
def strLower (s : String) : String := String.mk (s.toList.map Char.toLower)

/-- Models Python `s.upper()`. -/
def strUpper (s : String) : String := String.mk (s.toList.map Char.toUpper)

/-- Characters matched by Python `\s` (ASCII range). -/
def isPySpace (c : Char) : Bool :=
  c == ' ' || c == '\t' || c == '\n' || c == '\r' || c == '\x0b' || c == '\x0c'

/-- Models Python `s.strip()`. -/
def pyStrip (s : String) : String :=
  String.mk (((s.toList.dropWhile isPySpace).reverse.dropWhile isPySpace).reverse)

/-- Fuel-driven worker for `removeAllL`; the fuel (initially the list length)
only makes the recursion structural, one unit is spent per step and every
step consumes at least one character, so it never runs out. -/
def removeAllGo (pat : List Char) : Nat → List Char → List Char
  | _, [] => []
  | 0, l => l
  | fuel + 1, a :: as =>
    if !pat.isEmpty && startsWithL (a :: as) pat then
      removeAllGo pat fuel (as.drop (pat.length - 1))
    else a :: removeAllGo pat fuel as

/-- Models Python `s.replace(pat, '')`: remove all (non-overlapping, leftmost)
occurrences of `pat`. -/
def removeAllL (pat l : List Char) : List Char := removeAllGo pat l.length l

/-- Models Python `s.replace(pat, '')` on strings. -/
def removeAll (pat s : String) : String := String.mk (removeAllL pat.toList s.toList)

/-- Models Python `int(digits)` for a digit run. -/
def digitsToNat (l : List Char) : Nat := l.foldl (fun n c => n * 10 + (c.toNat - 48)) 0

/-! ### natural_sort_key (`ISIRChecker.natural_sort_key`)

Python: `[int(text) if text.isdigit() else text.lower() for text in re.split('([0-9]+)', s)]`.
`re.split` with a capturing digit group yields the alternating non-digit/digit
runs of the string, beginning and ending with a (possibly empty) non-digit run. -/

/-- Worker for `re.split('([0-9]+)', s)`: `isDig` says whether the current
run (held reversed in `acc`) is a digit run; runs alternate, and after a
trailing digit run the empty non-digit run is emitted, exactly as `re.split`
with a capturing group does. -/
def digitSplitGo (isDig : Bool) (acc : List Char) : List Char → List String
  | [] =>
    if isDig then [String.mk acc.reverse, ""] else [String.mk acc.reverse]
  | c :: cs =>
    if c.isDigit == isDig then digitSplitGo isDig (c :: acc) cs
    else String.mk acc.reverse :: digitSplitGo c.isDigit [c] cs

/-- Models `re.split('([0-9]+)', s)`. -/
def digitSplit (s : String) : List String := digitSplitGo false [] s.toList

/-- Models Python `text.isdigit()` (ASCII): non-empty and all digits. -/
def pyIsDigit (t : String) : Bool := !t.toList.isEmpty && t.toList.all Char.isDigit

/-- `ISIRChecker.natural_sort_key`: digit runs become integers, other runs are
lower-cased. -/
def natural_sort_key (s : String) : List (String ⊕ Nat) :=
  (digitSplit s).map fun t =>
    if pyIsDigit t then Sum.inr (digitsToNat t.toList) else Sum.inl (strLower t)

/-! ### The comparison Python `sorted` applies to these keys -/

/-- Python integer comparison as an `Ordering`. -/
def natCmp (a b : Nat) : Ordering := if a < b then .lt else if b < a then .gt else .eq

/-- Python string comparison: lexicographic by code point. -/
def charListCmp : List Char → List Char → Ordering
  | [], [] => .eq
  | [], _ :: _ => .lt
  | _ :: _, [] => .gt
  | a :: as, b :: bs =>
    match natCmp a.toNat b.toNat with
    | .eq => charListCmp as bs
    | o => o

/-- Comparison of one key element (str vs str, int vs int; the mixed cases are
never reached for keys produced by `natural_sort_key`, whose element types
alternate by position). -/
def elemCmp : String ⊕ Nat → String ⊕ Nat → Ordering
  | .inl s, .inl t => charListCmp s.toList t.toList
  | .inr m, .inr n => natCmp m n
  | .inl _, .inr _ => .lt
  | .inr _, .inl _ => .gt

/-- Python list comparison: lexicographic, a proper initial segment is
smaller. -/
def keyCmp : List (String ⊕ Nat) → List (String ⊕ Nat) → Ordering
  | [], [] => .eq
  | [], _ :: _ => .lt
  | _ :: _, [] => .gt
  | a :: as, b :: bs =>
    match elemCmp a b with
    | .eq => keyCmp as bs
    | o => o

/-- The `le` relation `sorted(..., key=self.natural_sort_key)` sorts by. -/
def natKeyLe (a b : String) : Bool :=
  decide (keyCmp (natural_sort_key a) (natural_sort_key b) ≠ Ordering.gt)

/-- Stable insertion of `x` after every element `y` with `le y x`. -/
def insertLe (le : α → α → Bool) (x : α) : List α → List α
  | [] => [x]
  | y :: ys => if le y x then y :: insertLe le x ys else x :: y :: ys

/-- Python `sorted(l, ...)` with the comparison `le`: a stable sort (for a
total transitive `le`, the stable sort of a list is unique, so this is
extensionally Python's sort). -/
def pySorted (le : α → α → Bool) (l : List α) : List α :=
  l.foldl (fun acc x => insertLe le x acc) []

/-! ### Document model

The input of the pipeline after BeautifulSoup parsing: only the features the
code reads are kept.  A `Cell` is one `td` of a section-table row: its
`get_text(separator=' ', strip=True)` text, the `href` values of the anchors
matching `find('a', href=...)` (in document order), the `onclick` attribute
values of the elements `find_all(attrs={"onclick": True})` returns (in
document order), and the class list of the first `span` (if a span exists). -/

structure Cell where
  text : String
  anchorHrefs : List String
  onclicks : List String
  spanClasses : Option (List String)
deriving DecidableEq, Repr

def defaultCell : Cell := ⟨"", [], [], none⟩

/-- One `div` of the page, a candidate section container: its `id` attribute
and, when it holds a `table.evidenceUpadcuDetailTable`, that table's `tr` rows
(header row included), each row being its `td` cells. -/
structure SectionDiv where
  id : String
  tableRows : Option (List (List Cell))
deriving DecidableEq, Repr

/-- One `td` of the case-detail table: its text and its serialized HTML
(`str(cell)`), which the code runs regexes over. -/
structure DetailCell where
  text : String
  raw : String
deriving DecidableEq, Repr

/-- One `tr` of the case-detail table: its serialized HTML (for the
`'nadpis' in str(row).lower()` test), its `td` cells, and the texts of its
`h2` elements. -/
structure DetailRow where
  raw : String
  cells : List DetailCell
  h2Texts : List String
deriving DecidableEq, Repr

/-- The parsed page: the `table.evidenceUpadcuDetail` rows when that table is
present, and all `div` elements having an `id`. -/
structure Document where
  detailTable : Option (List DetailRow)
  divs : List SectionDiv
deriving DecidableEq, Repr

/-! ### Output model -/

/-- One parsed entry dict of `fetch_and_parse`. -/
structure Entry where
  id : String
  time : String
  desc : String
  pdf_url : String
  is_new : Bool
  additional_info : String
  is_greyed : Bool
  has_valid_doc : Bool
deriving DecidableEq, Repr

/-- One group dict for sections C and P. -/
structure Group where
  group : String
  entries : List Entry
  metadata : String
deriving DecidableEq, Repr

/-- A value of the `sections` dict: a flat entry list (A, B, D, and a section
whose table is missing) or a group list (C, P). -/
inductive SectionVal where
  | flat (entries : List Entry)
  | grouped (groups : List Group)
deriving DecidableEq, Repr

/-- The return value of `fetch_and_parse`. -/
inductive PyResult where
  | success (sections : List (String × SectionVal)) (case_info : List (String × String))
  | error (message : String)
deriving DecidableEq, Repr

/-! ### Insertion-ordered dicts (Python dict semantics on assoc lists) -/

def dictGet? (d : List (String × α)) (k : String) : Option α :=
  (d.find? (fun kv => kv.1 == k)).map (·.2)

def dictHas (d : List (String × α)) (k : String) : Bool := (dictGet? d k).isSome

/-- `d[k] = v`: update in place when the key exists, else append. -/
def dictSet (d : List (String × α)) (k : String) (v : α) : List (String × α) :=
  if dictHas d k then d.map (fun kv => if kv.1 == k then (k, v) else kv)
  else d ++ [(k, v)]

/-! ### Case metadata extraction (the `detail_table` block of `fetch_and_parse`) -/

/-- Leftmost match of `re.search(r'<strong>\s*([^<]+)\s*</strong>', raw)`,
already stripped as the code does with `.group(1).strip()`.  The pattern
matches at a position exactly when `<strong>` is followed by a non-empty run
of characters other than `<` which is immediately followed by `</strong>`. -/
def strongTry (l : List Char) : Option String :=
  if startsWithL l "<strong>".toList then
    let r := l.drop 8
    let run := r.takeWhile (· ≠ '<')
    if run.isEmpty then none
    else if startsWithL (r.drop run.length) "</strong>".toList then
      some (pyStrip (String.mk run))
    else none
  else none

def strongSearch : List Char → Option String
  | [] => none
  | a :: as => (strongTry (a :: as)).orElse fun _ => strongSearch as

/-- Leftmost match of
`re.search(r'<strong>\s*<font[^>]*>\s*([^<]+)\s*</font>\s*</strong>', raw)`,
stripped. -/
def strongFontTry (l : List Char) : Option String :=
  if startsWithL l "<strong>".toList then
    let r1 := (l.drop 8).dropWhile isPySpace
    if startsWithL r1 "<font".toList then
      match (r1.drop 5).dropWhile (· ≠ '>') with
      | '>' :: r3 =>
        let run := r3.takeWhile (· ≠ '<')
        if run.isEmpty then none
        else
          let r4 := r3.drop run.length
          if startsWithL r4 "</font>".toList then
            if startsWithL ((r4.drop 7).dropWhile isPySpace) "</strong>".toList then
              some (pyStrip (String.mk run))
            else none
          else none
      | _ => none
    else none
  else none

def strongFontSearch : List Char → Option String
  | [] => none
  | a :: as => (strongFontTry (a :: as)).orElse fun _ => strongFontSearch as

/-- Processing of one row of the case-detail table. -/
def caseInfoStep (ci : List (String × String)) (row : DetailRow) : List (String × String) :=
  if 2 ≤ row.cells.length then
    let label := (row.cells.headD ⟨"", ""⟩).text
    let value_cell := row.cells.getLastD ⟨"", ""⟩
    if strContains (strLower row.raw) "nadpis" then
      match row.h2Texts with
      | _ :: nm :: _ => dictSet ci "name" nm
      | _ => ci
    else if strContains label "Aktuální stav" then dictSet ci "status" value_cell.text
    else if strContains label "Spisová značka" then
      let raw_html := value_cell.raw
      let case_number := (strongSearch raw_html.toList).getD ""
      let court_name := (strongFontSearch raw_html.toList).getD ""
      dictSet (dictSet ci "case_number" case_number) "court" court_name
    else ci
  else ci

/-- The `case_info` dict built from the `evidenceUpadcuDetail` table (empty
when the table is absent). -/
def extractCaseInfo (d : Document) : List (String × String) :=
  match d.detailTable with
  | none => []
  | some rows => rows.foldl caseInfoStep []

/-! ### Attachment (PDF) resolution per row -/

/-- The href filter `re.compile(r'dokument\.PDF\?id=', re.IGNORECASE)`
applied by `cell.find('a', href=...)`. -/
def hrefMatches (h : String) : Bool := strContains (strLower h) "dokument.pdf?id="

/-- Absolute-URL construction for a direct link. -/
def mkAbsUrl (raw : String) : String :=
  if startsWithL raw.toList ['/'] then "https://isir.justice.cz" ++ raw
  else if startsWithL raw.toList "http".toList then raw
  else "https://isir.justice.cz/" ++ raw

/-- Match of `re.search(r"zobrazDokument\s*\(\s*['\"]?(\d+)['\"]?\s*\)", s)`
starting exactly at the head of `l`, returning the captured digit run. -/
def zobrazTry (l : List Char) : Option String :=
  if startsWithL l "zobrazDokument".toList then
    match (l.drop 14).dropWhile isPySpace with
    | '(' :: r2 =>
      let r3 := r2.dropWhile isPySpace
      let r4 := match r3 with
        | c :: t => if c == '\'' || c == '"' then t else r3
        | [] => r3
      let ds := r4.takeWhile Char.isDigit
      if ds.isEmpty then none
      else
        let r5 := r4.drop ds.length
        let r6 := match r5 with
          | c :: t => if c == '\'' || c == '"' then t else r5
          | [] => r5
        match r6.dropWhile isPySpace with
        | ')' :: _ => some (String.mk ds)
        | _ => none
    | _ => none
  else none

/-- Leftmost `zobrazDokument('<digits>')` match anywhere in the string. -/
def zobrazSearch : List Char → Option String
  | [] => none
  | a :: as => (zobrazTry (a :: as)).orElse fun _ => zobrazSearch as

/-- Attachment resolution inside one cell: the direct-href method is tried
first, then the onclick method. -/
def cellPdf (cell : Cell) : Option String :=
  match cell.anchorHrefs.find? hrefMatches with
  | some raw => some (mkAbsUrl raw)
  | none =>
    match cell.onclicks.findSome? (fun oc => zobrazSearch oc.toList) with
    | some did => some ("https://isir.justice.cz/isir/doc/dokument.PDF?id=" ++ did)
    | none => none

/-- The left-to-right scan over all cells of the row; the first hit (of either
kind) wins. -/
def findPdf (cells : List Cell) : Option String := cells.findSome? cellPdf

/-! ### Group keys and per-row metadata for sections C and P -/

/-- `re.match(f'({letter}\\d+)', doc_id)`: the leading letter-plus-digits
run. -/
def groupKeyMatch (letter doc_id : String) : Option String :=
  if startsWithL doc_id.toList letter.toList then
    let ds := (doc_id.toList.drop letter.toList.length).takeWhile Char.isDigit
    if ds.isEmpty then none else some (letter ++ String.mk ds)
  else none

/-- Python list indexing: raises `IndexError` when out of range. -/
def pyIndex (l : List α) (i : Nat) : Except String α :=
  match l.get? i with
  | some a => .ok a
  | none => .error "list index out of range"

/-- The sections C / P metadata block inside the row loop: reads `cells[8]`
behind a `len(cells) > 8` guard for C but a `len(cells) > 6` guard for P, so
it can raise.  Returns the row's `additional_info` and the updated
`group_metadata` dict. -/
def sectionMeta (letter : String) (cells : List Cell) (doc_id : String)
    (gmeta : List (String × String)) : Except String (String × List (String × String)) :=
  if letter == "C" && decide (8 < cells.length) then do
    let cell8 ← pyIndex cells 8
    let case_mark := cell8.text
    if case_mark != "" && !(["&nbsp;", ""].contains case_mark) then
      match groupKeyMatch letter doc_id with
      | some gk =>
        if dictHas gmeta gk then .ok (case_mark, gmeta)
        else .ok (case_mark, dictSet gmeta gk case_mark)
      | none => .ok (case_mark, gmeta)
    else .ok ("", gmeta)
  else if letter == "P" && decide (6 < cells.length) then do
    let cell8 ← pyIndex cells 8
    let case_mark := cell8.text
    if case_mark != "" && !(["&nbsp;", ""].contains case_mark) then
      match groupKeyMatch letter doc_id with
      | some gk =>
        if dictHas gmeta gk then .ok (case_mark, gmeta)
        else .ok (case_mark, dictSet gmeta gk case_mark)
      | none => .ok (case_mark, gmeta)
    else .ok ("", gmeta)
  else .ok ("", gmeta)

/-! ### The row loop, grouping and the facade -/

/-- Body of `for row in rows` in `fetch_and_parse`: threads the accumulated
entry list, the `group_metadata` dict and `current_batch_ids`. -/
def rowStep (seen : Finset String) (letter : String)
    (st : List Entry × List (String × String) × Finset String) (cells : List Cell) :
    Except String (List Entry × List (String × String) × Finset String) :=
  let (entries, gmeta, batch) := st
  if cells.length < 5 then .ok st
  else do
    let doc_id := (cells.getD 0 defaultCell).text
    let time_str := (cells.getD 1 defaultCell).text ++ " " ++ (cells.getD 2 defaultCell).text
    let desc := (cells.getD 3 defaultCell).text
    let is_greyed :=
      match (cells.getD 0 defaultCell).spanClasses with
      | some cls => !(cls.contains "posledniCislo")
      | none => false
    let pdfFound := findPdf cells
    let (additional_info, gmeta') ← sectionMeta letter cells doc_id gmeta
    let is_new := decide (doc_id ∉ seen) && decide (0 < seen.card)
    .ok (entries ++ [{ id := doc_id, time := time_str, desc := desc,
                       pdf_url := pdfFound.getD "#", is_new := is_new,
                       additional_info := additional_info, is_greyed := is_greyed,
                       has_valid_doc := pdfFound.isSome }],
         gmeta', insert doc_id batch)

/-- Insert one entry into the `groups` dict keyed by its group key
(`"Other"` when the id has no letter-digits run). -/
def addToGroups (letter : String) (gs : List (String × List Entry)) (e : Entry) :
    List (String × List Entry) :=
  let gk := (groupKeyMatch letter e.id).getD "Other"
  match dictGet? gs gk with
  | some l => dictSet gs gk (l ++ [e])
  | none => gs ++ [(gk, [e])]

/-- Grouping plus natural sort of the group keys for sections C and P. -/
def assembleGroups (letter : String) (entries : List Entry)
    (gmeta : List (String × String)) : List Group :=
  let gs := entries.foldl (addToGroups letter) []
  (pySorted natKeyLe (gs.map Prod.fst)).map fun k =>
    { group := k, entries := (dictGet? gs k).getD [],
      metadata := (dictGet? gmeta k).getD "" }

/-- The section tag of a container div:
`section_div.get('id', '').replace('zalozka', '').upper()`. -/
def letterOf (dv : SectionDiv) : String := strUpper (removeAll "zalozka" dv.id)

/-- The fixed set of section tags. -/
def fixedTags : List String := ["A", "B", "C", "D", "P"]

/-- Body of `for section_div in section_divs`: accumulates the `sections`
dict and `current_batch_ids`. -/
def divStep (seen : Finset String)
    (acc : List (String × SectionVal) × Finset String) (dv : SectionDiv) :
    Except String (List (String × SectionVal) × Finset String) :=
  let letter := letterOf dv
  if !(fixedTags.contains letter) then .ok acc
  else
    match dv.tableRows with
    | none => .ok (dictSet acc.1 letter (SectionVal.flat []), acc.2)
    | some trs => do
      let rows := (trs.drop 1).reverse
      let (parsed_entries, gmeta, batch) ← rows.foldlM (rowStep seen letter) ([], [], acc.2)
      if ["C", "P"].contains letter then
        .ok (dictSet acc.1 letter
              (SectionVal.grouped (assembleGroups letter parsed_entries gmeta)), batch)
      else
        .ok (dictSet acc.1 letter (SectionVal.flat parsed_entries), batch)

/-- Everything `fetch_and_parse` does after a successful fetch, up to the
seen-set update: case metadata, the per-div section loop, and the collected
batch of identities.  An uncaught Python exception is the `.error` case. -/
def parseBody (seen : Finset String) (soup : Document) :
    Except String (List (String × SectionVal) × List (String × String) × Finset String) := do
  let case_info := extractCaseInfo soup
  let section_divs := soup.divs.filter fun dv => startsWithL dv.id.toList "zalozka".toList
  let (sections, batch) ← section_divs.foldlM (divStep seen) ([], ∅)
  .ok (sections, case_info, batch)

/-- The engine state: the seen-identity set `self.seen_ids`. -/
structure ISIRChecker where
  seen_ids : Finset String
deriving DecidableEq

/-- `ISIRChecker.fetch_and_parse`.  The fetch step is modelled by the
`fetched` argument: `.error` is a transport failure (an exception raised by
`requests.get` / `raise_for_status`).  All exceptions are caught and turned
into the error envelope; the seen-set is updated only after a fully
successful pass. -/
def fetch_and_parse (checker : ISIRChecker) (fetched : Except String Document) :
    PyResult × ISIRChecker :=
  match fetched with
  | .error e => (.error e, checker)
  | .ok soup =>
    match parseBody checker.seen_ids soup with
    | .error e => (.error e, checker)
    | .ok (sections, case_info, batch) =>
      (.success sections case_info, ⟨checker.seen_ids ∪ batch⟩)

/-- A sequence of passes threading the checker state. -/
def runPasses (checker : ISIRChecker) (fetches : List (Except String Document)) : ISIRChecker :=
  fetches.foldl (fun c f => (fetch_and_parse c f).2) checker

/-- All entries below a section value. -/
def SectionVal.entriesOf : SectionVal → List Entry
  | .flat es => es
  | .grouped gs => (gs.map Group.entries).flatten

/-- All entries anywhere in a result. -/
def PyResult.entriesOf : PyResult → List Entry
  | .success secs _ => (secs.map fun kv => kv.2.entriesOf).flatten
  | .error _ => []

/-- Error-envelope test. -/
def PyResult.isError : PyResult → Bool
  | .success _ _ => false
  | .error _ => true

/-! ### Derived projections and spec-side definitions used by the theorems -/

/-- The section tags of the containers the code recognizes in a document, in
document order (duplicates kept). -/
def recognizedLetters (d : Document) : List String :=
  ((d.divs.filter fun dv => startsWithL dv.id.toList "zalozka".toList).map letterOf).filter
    fun L => fixedTags.contains L

/-- Left-biased choice on options. -/
def optOr : Option α → Option α → Option α
  | some a, _ => some a
  | none, b => b

/-- Modelled from the amended claim C8: the group-metadata value a single row
contributes for group key `k` (the row must be accepted, pass the
section-specific column guard, carry a non-placeholder text in column 8, and
belong to group `k`). -/
def rowMetaVal (letter : String) (cells : List Cell) (k : String) : Option String :=
  if cells.length < 5 then none
  else if (letter == "C" && decide (8 < cells.length)) ||
          (letter == "P" && decide (6 < cells.length)) then
    match cells.get? 8 with
    | some cell8 =>
      let case_mark := cell8.text
      if case_mark != "" && !(["&nbsp;", ""].contains case_mark) &&
         (groupKeyMatch letter (cells.getD 0 defaultCell).text == some k) then
        some case_mark
      else none
    | none => none
  else none

/-- Modelled from the amended claim C8: the metadata of group `k` is the
contribution of the first row, in processing order, that has one. -/
def firstGroupMeta (letter : String) (rows : List (List Cell)) (k : String) : Option String :=
  rows.findSome? fun cells => rowMetaVal letter cells k

/-! ### Concrete fixtures for counterexamples and witnesses -/

/-- A cell with only text. -/
def mkCell (t : String) : Cell := ⟨t, [], [], none⟩

/-- A minimal accepted row (5 cells). -/
def baseRow (idText : String) : List Cell :=
  [mkCell idText, mkCell "01.01.2024", mkCell "10:00", mkCell "Usnesení", mkCell ""]

/-- A section P row with exactly 7 cells: accepted (≥ 5) and passing the
`len(cells) > 6` guard, but with no column at index 8. -/
def rowP7 : List Cell := baseRow "P1 - 1." ++ [mkCell "", mkCell ""]

/-- Document whose only section is P with the 7-cell row (after a header
row). -/
def docP7 : Document := ⟨none, [⟨"zalozkaP", some [[], rowP7]⟩]⟩

/-- Document with no section containers at all. -/
def emptyDoc : Document := ⟨none, []⟩

/-- Section C with rows labelled C10, C2, C1 (source order). -/
def docC6 : Document :=
  ⟨none, [⟨"zalozkaC", some [[], baseRow "C10 - 1.", baseRow "C2 - 1.", baseRow "C1 - 1."]⟩]⟩

/-- A cell whose only attachment evidence is an inline onclick reference. -/
def cellOnclick : Cell := ⟨"", [], ["zobrazDokument('123')"], none⟩

/-- A cell with a direct matching attachment link. -/
def cellDirect : Cell := ⟨"", ["/isir/doc/dokument.PDF?id=456"], [], none⟩

/-- A cell with neither. -/
def cellPlain : Cell := mkCell ""

/-- A 9-cell section C row whose column 8 carries group metadata. -/
def metaRow (idText meta : String) : List Cell :=
  baseRow idText ++ [mkCell "", mkCell "", mkCell "", mkCell meta]

/-- Section C with two rows of group C1: source order has metadata "X" first
(newest row), then "Y" (oldest row). -/
def docC8 : Document :=
  ⟨none, [⟨"zalozkaC", some [[], metaRow "C1 - 2." "X", metaRow "C1 - 1." "Y"]⟩]⟩

/-- A case-detail row labelled `Spisová značka` whose value cell contains no
emphasized (strong) run at all. -/
def spisRow : DetailRow :=
  ⟨"<tr><td>Spisová značka</td><td>47 INS 123/2024</td></tr>",
   [⟨"Spisová značka", "<td>Spisová značka</td>"⟩,
    ⟨"47 INS 123/2024", "<td>47 INS 123/2024</td>"⟩], []⟩

/-- Document with only the metadata table, holding `spisRow`. -/
def docC9 : Document := ⟨some [spisRow], []⟩

/-- Section A with rows A2 (newest) and A1 (oldest). -/
def docA : Document :=
  ⟨none, [⟨"zalozkaA", some [[], baseRow "A2 - 1.", baseRow "A1 - 1."]⟩]⟩

/-- A document whose only container is a section A div with no inner table. -/
def docA0 : Document := ⟨none, [⟨"zalozkaA", none⟩]⟩

/-- The entry a `baseRow` yields against an empty seen-set. -/
def entOf (idText : String) (n : Bool) : Entry :=
  { id := idText, time := "01.01.2024 10:00", desc := "Usnesení", pdf_url := "#",
    is_new := n, additional_info := "", is_greyed := false, has_valid_doc := false }

/-- The three groups `docC6` parses into, in natural order. -/
def gsC6 : List Group :=
  [⟨"C1", [entOf "C1 - 1." false], ""⟩, ⟨"C2", [entOf "C2 - 1." false], ""⟩,
   ⟨"C10", [entOf "C10 - 1." false], ""⟩]

/-- The entry a `metaRow` yields against an empty seen-set. -/
def entMeta (idText ai : String) : Entry :=
  { id := idText, time := "01.01.2024 10:00", desc := "Usnesení", pdf_url := "#",
    is_new := false, additional_info := ai, is_greyed := false, has_valid_doc := false }

/-- The rows of the `docC8` section C table, processing order (post-reversal). -/
def rowsC8 : List (List Cell) :=
  (([[], metaRow "C1 - 2." "X", metaRow "C1 - 1." "Y"] : List (List Cell)).drop 1).reverse

/-- The per-entry invariant threaded through a pass: `is_new` is computed
against the pre-pass seen-set, and the entry's id has been collected in the
running batch. -/
def EntryInv (seen batch : Finset String) (e : Entry) : Prop :=
  e.is_new = (decide (e.id ∉ seen) && decide (0 < seen.card)) ∧ e.id ∈ batch

/-! ### Generic monadic helper lemmas -/

theorem except_bind_ok {ε α β : Type} (a : α) (f : α → Except ε β) :
    (Except.ok a >>= f) = f a := rfl

theorem except_bind_error {ε α β : Type} (e : ε) (f : α → Except ε β) :
    ((Except.error e : Except ε α) >>= f) = .error e := rfl

theorem except_pure {ε α : Type} (a : α) : (pure a : Except ε α) = .ok a := rfl

/-- Invariant preservation through `List.foldlM` over `Except`. -/
theorem foldlM_except_inv {σ α : Type} (f : σ → α → Except String σ) (Q : σ → Prop)
    (hstep : ∀ s a s2, Q s → f s a = .ok s2 → Q s2) :
    ∀ (l : List α) (s s2 : σ), Q s → l.foldlM f s = .ok s2 → Q s2 := by
  intro l
  induction l with
  | nil =>
    intro s s2 hq h
    simp only [List.foldlM_nil, except_pure, Except.ok.injEq] at h
    exact h ▸ hq
  | cons a t ih =>
    intro s s2 hq h
    rw [List.foldlM_cons] at h
    cases hf : f s a with
    | error e => rw [hf] at h; simp only [except_bind_error] at h; cases h
    | ok s1 =>
      rw [hf] at h
      simp only [except_bind_ok] at h
      exact ih s1 s2 (hstep s a s1 hq hf) h

/-- Structure of a successful `rowStep`: either the row is rejected (fewer
than 5 cells) and the state is unchanged, or exactly one entry, built by the
row-extraction formulas, is appended and its id inserted into the batch. -/
theorem rowStep_shape (seen : Finset String) (letter : String)
    (es : List Entry) (g : List (String × String)) (b : Finset String)
    (cells : List Cell) (es2 : List Entry) (g2 : List (String × String)) (b2 : Finset String)
    (h : rowStep seen letter (es, g, b) cells = .ok (es2, g2, b2)) :
    (es2 = es ∧ g2 = g ∧ b2 = b ∧ cells.length < 5) ∨
    (5 ≤ cells.length ∧ ∃ e ai,
      sectionMeta letter cells (cells.getD 0 defaultCell).text g = .ok (ai, g2) ∧
      es2 = es ++ [e] ∧ b2 = insert e.id b ∧
      e.id = (cells.getD 0 defaultCell).text ∧
      e.is_new = (decide (e.id ∉ seen) && decide (0 < seen.card)) ∧
      e.pdf_url = (findPdf cells).getD "#" ∧
      e.has_valid_doc = (findPdf cells).isSome ∧
      e.additional_info = ai) := by
  unfold rowStep at h
  dsimp only at h
  by_cases hl : cells.length < 5
  · rw [if_pos hl] at h
    left
    cases h
    exact ⟨rfl, rfl, rfl, hl⟩
  · rw [if_neg hl] at h
    right
    refine ⟨by omega, ?_⟩
    cases hm : sectionMeta letter cells (cells.getD 0 defaultCell).text g with
    | error e => rw [hm] at h; simp only [except_bind_error] at h; cases h
    | ok p =>
      obtain ⟨ai, gg⟩ := p
      rw [hm] at h
      simp only [except_bind_ok, Except.ok.injEq, Prod.mk.injEq] at h
      obtain ⟨h1, h2, h3⟩ := h
      refine ⟨_, ai, ?_, h1.symm, h3.symm, rfl, rfl, rfl, rfl, rfl⟩
      rw [← h2]

/-- If no cell of the row resolves an attachment, the whole scan resolves
none. -/
theorem findPdf_eq_none (cells : List Cell) (h : ∀ cell ∈ cells, cellPdf cell = none) :
    findPdf cells = none := by
  induction cells with
  | nil => rfl
  | cons a t ih =>
    have ha : cellPdf a = none := h a (by simp)
    have ht : ∀ cell ∈ t, cellPdf cell = none := fun cell hc => h cell (by simp [hc])
    have := ih ht
    simp only [findPdf, List.findSome?_cons, ha] at this ⊢
    exact this

/-! ### Claim C3 -/

/-- C3: for every input, `fetch_and_parse` returns a result rather than
propagating an exception — either a success envelope or an error envelope —
and whenever it returns the error envelope (transport failure included) the
seen-set is exactly what it was before the call. -/
theorem fetch_total_and_error_preserves_seen :
    (∀ (c : ISIRChecker) (fetched : Except String Document),
      (∃ secs ci, (fetch_and_parse c fetched).1 = .success secs ci) ∨
      ((∃ m, (fetch_and_parse c fetched).1 = .error m) ∧
        (fetch_and_parse c fetched).2 = c)) ∧
    (∀ (c : ISIRChecker) (m : String), fetch_and_parse c (.error m) = (.error m, c)) := by
  constructor
  · intro c fetched
    cases fetched with
    | error m => right; exact ⟨⟨m, rfl⟩, rfl⟩
    | ok soup =>
      cases h : parseBody c.seen_ids soup with
      | error m =>
        right
        refine ⟨⟨m, ?_⟩, ?_⟩ <;> · unfold fetch_and_parse; dsimp only; rw [h]
      | ok t =>
        left
        obtain ⟨s, ci, b⟩ := t
        exact ⟨s, ci, by unfold fetch_and_parse; dsimp only; rw [h]⟩
  · intro c m
    rfl

/-! ### Claim C4 -/

/-- C4: the claim that metadata column access is guarded fails on the code
for section P: a P row with 7 cells is accepted by the 5-column minimum and
passes the `len(cells) > 6` guard, yet the code reads `cells[8]`, raising
IndexError and aborting the whole parse into the error envelope. -/
theorem p_row_seven_cells_index_error :
    rowP7.length = 7 ∧ 5 ≤ rowP7.length ∧ 6 < rowP7.length ∧
    fetch_and_parse ⟨∅⟩ (.ok docP7) = (.error "list index out of range", ⟨∅⟩) :=
  ⟨rfl, by decide, by decide, rfl⟩

/-! ### Claim C10 -/

/-- C10: for every accepted row in which the column scan finds neither a
direct matching attachment link nor an inline action reference, the resulting
entry carries the absent-attachment sentinel `"#"` as its url and
`has_valid_doc = false`. -/
theorem no_attachment_row_unavailable :
    ∀ (seen : Finset String) (letter : String) (es : List Entry)
      (g : List (String × String)) (b : Finset String) (cells : List Cell)
      (es2 : List Entry) (g2 : List (String × String)) (b2 : Finset String),
      rowStep seen letter (es, g, b) cells = .ok (es2, g2, b2) →
      5 ≤ cells.length →
      (∀ cell ∈ cells, cellPdf cell = none) →
      ∃ e, es2 = es ++ [e] ∧ e.pdf_url = "#" ∧ e.has_valid_doc = false ∧
        e.id = (cells.getD 0 defaultCell).text := by
  intro seen letter es g b cells es2 g2 b2 h hlen hnone
  rcases rowStep_shape seen letter es g b cells es2 g2 b2 h with
    ⟨_, _, _, hlt⟩ | ⟨_, e, ai, _, hes, _, hid, _, hpdf, hdoc, _⟩
  · omega
  · refine ⟨e, hes, ?_, ?_, hid⟩
    · rw [hpdf, findPdf_eq_none cells hnone]; rfl
    · rw [hdoc, findPdf_eq_none cells hnone]; rfl

/-- Witness for C10 at a concrete row with no attachment evidence. -/
theorem no_attachment_row_unavailable_witness :
    ∃ e, [entOf "A1 - 1." false] = [] ++ [e] ∧ e.pdf_url = "#" ∧
      e.has_valid_doc = false ∧ e.id = "A1 - 1." :=
  no_attachment_row_unavailable ∅ "A" [] [] ∅ (baseRow "A1 - 1.")
    [entOf "A1 - 1." false] [] (insert "A1 - 1." ∅) rfl (by decide) (by decide)

/-! ### Claim C7 -/

/-- C7 counterexample: a row whose first column holds only an inline
`zobrazDokument` reference and whose second column holds a direct matching
link resolves to the synthesized inline URL, not the direct link's URL. -/
theorem attachment_precedence_counterexample :
    findPdf [cellOnclick, cellDirect] =
      some "https://isir.justice.cz/isir/doc/dokument.PDF?id=123" ∧
    mkAbsUrl "/isir/doc/dokument.PDF?id=456" =
      "https://isir.justice.cz/isir/doc/dokument.PDF?id=456" ∧
    ("https://isir.justice.cz/isir/doc/dokument.PDF?id=123" : String) ≠
      "https://isir.justice.cz/isir/doc/dokument.PDF?id=456" :=
  ⟨rfl, rfl, by decide⟩

/-- C7 amended: columns are scanned left to right and the first cell with a
hit of either kind wins (scanning stops there); within one cell the direct
matching link takes precedence over an inline action reference, so a direct
link wins only when no strictly earlier column has a hit. -/
theorem attachment_first_hit_wins :
    (∀ (pre post : List Cell) (c : Cell) (u : String),
      (∀ x ∈ pre, cellPdf x = none) → cellPdf c = some u →
      findPdf (pre ++ c :: post) = some u) ∧
    (∀ (c : Cell) (raw : String),
      c.anchorHrefs.find? hrefMatches = some raw → cellPdf c = some (mkAbsUrl raw)) := by
  constructor
  · intro pre post c u hnone hc
    induction pre with
    | nil => simp [findPdf, List.findSome?_cons, hc]
    | cons a t ih =>
      have ha : cellPdf a = none := hnone a (by simp)
      have ht : ∀ x ∈ t, cellPdf x = none := fun x hx => hnone x (by simp [hx])
      have := ih ht
      simp only [findPdf, List.cons_append, List.findSome?_cons, ha] at this ⊢
      exact this
  · intro c raw h
    unfold cellPdf
    rw [h]

/-- Witness for C7 amended: with an empty cell first, the direct link in the
second cell wins, via both parts of the theorem. -/
theorem attachment_first_hit_wins_witness :
    findPdf [cellPlain, cellDirect] = some (mkAbsUrl "/isir/doc/dokument.PDF?id=456") ∧
    cellPdf cellDirect = some (mkAbsUrl "/isir/doc/dokument.PDF?id=456") :=
  ⟨attachment_first_hit_wins.1 [cellPlain] [] cellDirect _ (by decide)
    (attachment_first_hit_wins.2 cellDirect "/isir/doc/dokument.PDF?id=456" rfl),
   attachment_first_hit_wins.2 cellDirect "/isir/doc/dokument.PDF?id=456" rfl⟩

/-! ### Claim C9 -/

/-- C9 counterexample: when the `Spisová značka` row's value cell contains no
emphasized sub-pattern at all, the call still succeeds but `case_info`
contains the fields `case_number` and `court` with empty-string values — the
fields are present, not absent. -/
theorem case_info_fields_present_when_pattern_absent :
    (fetch_and_parse ⟨∅⟩ (.ok docC9)).1 =
      .success [] [("case_number", ""), ("court", "")] ∧
    strongSearch (spisRow.cells.getLastD ⟨"", ""⟩).raw.toList = none ∧
    strongFontSearch (spisRow.cells.getLastD ⟨"", ""⟩).raw.toList = none ∧
    dictGet? [("case_number", ""), ("court", "")] "case_number" = some "" :=
  ⟨rfl, rfl, rfl, rfl⟩

/-- C9 amended: absence of the metadata block yields an empty `case_info`
(and its extraction is a total function, so it never turns a pass into a
failure); on success `case_info` is exactly the extracted mapping; absence of
the case-number / authority sub-patterns yields the corresponding fields
present with empty-string values, not an error. -/
theorem case_info_tolerates_absence :
    (∀ d : Document, d.detailTable = none → extractCaseInfo d = []) ∧
    (∀ (c : ISIRChecker) (d : Document) secs ci c2,
      fetch_and_parse c (.ok d) = (.success secs ci, c2) → ci = extractCaseInfo d) ∧
    (∀ (ci : List (String × String)) (row : DetailRow),
      2 ≤ row.cells.length →
      strContains (strLower row.raw) "nadpis" = false →
      strContains (row.cells.headD ⟨"", ""⟩).text "Aktuální stav" = false →
      strContains (row.cells.headD ⟨"", ""⟩).text "Spisová značka" = true →
      strongSearch (row.cells.getLastD ⟨"", ""⟩).raw.toList = none →
      strongFontSearch (row.cells.getLastD ⟨"", ""⟩).raw.toList = none →
      caseInfoStep ci row = dictSet (dictSet ci "case_number" "") "court" "") := by
  refine ⟨?_, ?_, ?_⟩
  · intro d h
    unfold extractCaseInfo
    rw [h]
  · intro c d secs ci c2 h
    unfold fetch_and_parse at h
    dsimp only at h
    cases hp : parseBody c.seen_ids d with
    | error m => rw [hp] at h; cases h
    | ok t =>
      obtain ⟨s, ci2, b⟩ := t
      rw [hp] at h
      unfold parseBody at hp
      dsimp only at hp
      cases hf : ((d.divs.filter fun dv =>
          startsWithL dv.id.toList "zalozka".toList).foldlM (divStep c.seen_ids)
            (([] : List (String × SectionVal)), (∅ : Finset String))) with
      | error m => rw [hf] at hp; simp only [except_bind_error] at hp; cases hp
      | ok t2 =>
        obtain ⟨s2, b2⟩ := t2
        rw [hf] at hp
        simp only [except_bind_ok, Except.ok.injEq, Prod.mk.injEq] at hp
        injection h with hres hst
        injection hres with hsecs hci
        simp_all
  · intro ci row h2 hnad hstav hspis hstrong hfont
    unfold caseInfoStep
    dsimp only
    simp only [hnad, hstav, hspis, hstrong, hfont, Bool.false_eq_true, if_false, if_true,
      if_pos h2, Option.getD_none]

/-- Witness for C9 amended, applying all three parts at concrete inputs. -/
theorem case_info_tolerates_absence_witness :
    extractCaseInfo emptyDoc = [] ∧
    ([("case_number", ""), ("court", "")] : List (String × String)) =
      extractCaseInfo docC9 ∧
    caseInfoStep [] spisRow = dictSet (dictSet [] "case_number" "") "court" "" :=
  ⟨case_info_tolerates_absence.1 emptyDoc rfl,
   case_info_tolerates_absence.2.1 ⟨∅⟩ docC9 [] [("case_number", ""), ("court", "")] ⟨∅ ∪ ∅⟩ rfl,
   case_info_tolerates_absence.2.2 [] spisRow (by decide) (by decide) (by decide)
     (by decide) rfl rfl⟩


/-! ### Dict lemmas -/

theorem dictGet?_nil {α : Type} (k : String) : dictGet? ([] : List (String × α)) k = none := rfl

theorem dictGet?_cons {α : Type} (p : String × α) (t : List (String × α)) (k : String) :
    dictGet? (p :: t) k = if p.1 == k then some p.2 else dictGet? t k := by
  unfold dictGet?
  rw [List.find?_cons]
  by_cases hp : p.1 == k
  · simp [hp]
  · simp [hp]

theorem dictHas_cons {α : Type} (p : String × α) (t : List (String × α)) (k : String) :
    dictHas (p :: t) k = (p.1 == k || dictHas t k) := by
  unfold dictHas
  rw [dictGet?_cons]
  by_cases hp : p.1 == k
  · simp [hp]
  · simp [hp]

theorem dictGet?_map_set {α : Type} (d : List (String × α)) (k k2 : String) (v : α) :
    dictGet? (d.map fun kv => if kv.1 == k then (k, v) else kv) k2 =
      if k2 = k then (if dictHas d k then some v else none) else dictGet? d k2 := by
  induction d with
  | nil => by_cases h : k2 = k <;> simp [h, dictGet?_nil, dictHas]
  | cons p t ih =>
    rw [List.map_cons, dictGet?_cons, dictGet?_cons, dictHas_cons]
    simp only [beq_iff_eq] at ih ⊢
    by_cases hp : p.1 = k
    · by_cases h2 : k2 = k
      · subst h2; simp [hp, ih]
      · have hk : ¬(k = k2) := fun hc => h2 hc.symm
        have hpk2 : ¬(p.1 = k2) := by rw [hp]; exact hk
        simp [hp, hpk2, hk, ih, h2]
    · by_cases hq : p.1 = k2
      · have h2 : ¬(k2 = k) := fun hc => hp (hc ▸ hq)
        simp [hp, hq, h2]
      · by_cases h2 : k2 = k
        · subst h2; simp [hp, hq, ih]
        · simp [hp, hq, h2, ih]

theorem dictGet?_append_set {α : Type} (d : List (String × α)) (k k2 : String) (v : α) :
    dictGet? (d ++ [(k, v)]) k2 =
      optOr (dictGet? d k2) (if k2 = k then some v else none) := by
  induction d with
  | nil =>
    simp only [List.nil_append, dictGet?_cons, dictGet?_nil, optOr]
    by_cases h : k2 = k
    · subst h; simp
    · have : (k == k2) = false := by simpa using fun hc => h hc.symm
      simp [this, h]
  | cons p t ih =>
    rw [List.cons_append, dictGet?_cons, dictGet?_cons]
    by_cases hp : p.1 == k2
    · simp [hp, optOr]
    · simp [hp, ih]

theorem dictHas_eq_false_get {α : Type} (d : List (String × α)) (k : String)
    (h : dictHas d k = false) : dictGet? d k = none := by
  unfold dictHas at h
  cases hg : dictGet? d k with
  | none => rfl
  | some v => rw [hg] at h; cases h

/-- The dict update law: reading `k2` after `d[k] = v` gives `v` at `k` and
the old binding elsewhere. -/
theorem dictGet?_dictSet {α : Type} (d : List (String × α)) (k k2 : String) (v : α) :
    dictGet? (dictSet d k v) k2 = if k2 = k then some v else dictGet? d k2 := by
  unfold dictSet
  by_cases hd : dictHas d k
  · rw [if_pos hd, dictGet?_map_set]
    by_cases h2 : k2 = k
    · simp [h2, hd]
    · simp [h2]
  · rw [if_neg hd, dictGet?_append_set]
    by_cases h2 : k2 = k
    · subst h2
      rw [dictHas_eq_false_get d k2 (by simpa using hd)]
      simp [optOr]
    · simp only [h2, if_false]
      cases hg : dictGet? d k2 <;> simp [optOr]

theorem dictHas_dictSet {α : Type} (d : List (String × α)) (k k2 : String) (v : α) :
    dictHas (dictSet d k v) k2 = ((k2 == k) || dictHas d k2) := by
  unfold dictHas
  rw [dictGet?_dictSet]
  by_cases h2 : k2 = k
  · simp [h2]
  · have : (k2 == k) = false := by simpa using h2
    simp [h2, this]

theorem mem_dictSet {α : Type} (d : List (String × α)) (k : String) (v : α)
    (kv : String × α) (h : kv ∈ dictSet d k v) : kv = (k, v) ∨ kv ∈ d := by
  unfold dictSet at h
  by_cases hd : dictHas d k
  · rw [if_pos hd] at h
    obtain ⟨p, hp, he⟩ := List.mem_map.mp h
    by_cases hk : p.1 == k
    · left; rw [← he]; simp [hk]
    · right; rw [← he]; simp only [hk, Bool.false_eq_true, if_false]; exact hp
  · rw [if_neg hd] at h
    rcases List.mem_append.mp h with h1 | h1
    · right; exact h1
    · left; simpa using h1

theorem dictGet?_mem {α : Type} (d : List (String × α)) (k : String) (v : α)
    (h : dictGet? d k = some v) : (k, v) ∈ d := by
  unfold dictGet? at h
  cases hf : d.find? (fun kv => kv.1 == k) with
  | none => rw [hf] at h; cases h
  | some p =>
    rw [hf] at h
    have hp := List.find?_some hf
    have hm := List.mem_of_find?_eq_some hf
    have hv : p.2 = v := by injection h
    have hpk : p.1 = k := by simpa using hp
    have : p = (k, v) := by cases p; simp_all
    rw [← this]
    exact hm


/-! ### Grouping membership -/

/-- Every member list in the groups dict comes from the initial dict or the
folded entries. -/
theorem groupsFold_mem (letter : String) :
    ∀ (entries : List Entry) (gs0 : List (String × List Entry)) (k : String)
      (l : List Entry) (e : Entry),
      (k, l) ∈ entries.foldl (addToGroups letter) gs0 → e ∈ l →
      (∃ l0, (k, l0) ∈ gs0 ∧ e ∈ l0) ∨ e ∈ entries := by
  intro entries
  induction entries with
  | nil =>
    intro gs0 k l e hm he
    simp only [List.foldl_nil] at hm
    exact Or.inl ⟨l, hm, he⟩
  | cons a t ih =>
    intro gs0 k l e hm he
    simp only [List.foldl_cons] at hm
    rcases ih (addToGroups letter gs0 a) k l e hm he with ⟨l0, hl0, he0⟩ | ht
    · unfold addToGroups at hl0
      dsimp only at hl0
      cases hg : dictGet? gs0 ((groupKeyMatch letter a.id).getD "Other") with
      | some l1 =>
        rw [hg] at hl0
        rcases mem_dictSet _ _ _ _ hl0 with hnew | hold
        · have : l0 = l1 ++ [a] := by injection hnew
          rw [this] at he0
          rcases List.mem_append.mp he0 with h1 | h1
          · left
            refine ⟨l1, ?_, h1⟩
            have hk : k = (groupKeyMatch letter a.id).getD "Other" := by injection hnew
            rw [hk]
            exact dictGet?_mem _ _ _ hg
          · right; simp at h1; simp [h1]
        · exact Or.inl ⟨l0, hold, he0⟩
      | none =>
        rw [hg] at hl0
        rcases List.mem_append.mp hl0 with h1 | h1
        · exact Or.inl ⟨l0, h1, he0⟩
        · simp only [List.mem_singleton] at h1
          have : l0 = [a] := by injection h1
          rw [this] at he0
          simp only [List.mem_singleton] at he0
          right; simp [he0]
    · right; simp [ht]

/-- Every entry below `assembleGroups` is one of the grouped entries. -/
theorem mem_assembleGroups (letter : String) (entries : List Entry)
    (gmeta : List (String × String)) (e : Entry)
    (h : e ∈ ((SectionVal.grouped (assembleGroups letter entries gmeta)).entriesOf)) :
    e ∈ entries := by
  unfold SectionVal.entriesOf assembleGroups at h
  obtain ⟨l, hl, he⟩ := List.mem_flatten.mp h
  obtain ⟨gr, hgr, hge⟩ := List.mem_map.mp hl
  obtain ⟨k, hk, hkg⟩ := List.mem_map.mp hgr
  rw [← hge, ← hkg] at he
  dsimp only at he
  cases hg : dictGet? (entries.foldl (addToGroups letter) []) k with
  | none => rw [hg] at he; cases he
  | some l1 =>
    rw [hg] at he
    simp only [Option.getD_some] at he
    rcases groupsFold_mem letter entries [] k l1 e (dictGet?_mem _ _ _ hg) he with
      ⟨l0, hl0, _⟩ | ht
    · cases hl0
    · exact ht


/-! ### The per-pass entry invariant -/

theorem EntryInv.mono {seen b b2 : Finset String} {e : Entry}
    (h : EntryInv seen b e) (hb : b ⊆ b2) : EntryInv seen b2 e :=
  ⟨h.1, hb h.2⟩

/-- One `rowStep` preserves the invariant and only grows the batch. -/
theorem rowStep_inv (seen : Finset String) (letter : String)
    (es : List Entry) (g : List (String × String)) (b : Finset String)
    (cells : List Cell) (es2 : List Entry) (g2 : List (String × String)) (b2 : Finset String)
    (h : rowStep seen letter (es, g, b) cells = .ok (es2, g2, b2))
    (hq : ∀ e ∈ es, EntryInv seen b e) :
    (∀ e ∈ es2, EntryInv seen b2 e) ∧ b ⊆ b2 := by
  rcases rowStep_shape seen letter es g b cells es2 g2 b2 h with
    ⟨he, _, hb, _⟩ | ⟨_, e0, ai, _, hes, hb, hid, hnew, _, _, _⟩
  · subst he; subst hb; exact ⟨hq, Finset.Subset.refl _⟩
  · subst hes; subst hb
    have hsub : b ⊆ insert e0.id b := Finset.subset_insert _ b
    constructor
    · intro e he
      rcases List.mem_append.mp he with h1 | h1
      · exact (hq e h1).mono hsub
      · simp only [List.mem_singleton] at h1
        subst h1
        exact ⟨hnew, Finset.mem_insert_self _ _⟩
    · exact hsub

/-- One `divStep` preserves the sections-wide invariant. -/
theorem divStep_inv (seen : Finset String)
    (secs : List (String × SectionVal)) (b : Finset String) (dv : SectionDiv)
    (secs2 : List (String × SectionVal)) (b2 : Finset String)
    (h : divStep seen (secs, b) dv = .ok (secs2, b2))
    (hq : ∀ kv ∈ secs, ∀ e ∈ SectionVal.entriesOf kv.2, EntryInv seen b e) :
    (∀ kv ∈ secs2, ∀ e ∈ SectionVal.entriesOf kv.2, EntryInv seen b2 e) ∧ b ⊆ b2 := by
  unfold divStep at h
  dsimp only at h
  by_cases hrec : !(fixedTags.contains (letterOf dv))
  · rw [if_pos hrec] at h
    injection h with h1
    injection h1 with hs hb
    subst hs; subst hb
    exact ⟨hq, Finset.Subset.refl _⟩
  · rw [if_neg hrec] at h
    cases htr : dv.tableRows with
    | none =>
      rw [htr] at h
      injection h with h1
      injection h1 with hs hb
      subst hs; subst hb
      refine ⟨?_, Finset.Subset.refl _⟩
      intro kv hkv e he
      rcases mem_dictSet _ _ _ _ hkv with hnew | hold
      · subst hnew
        simp only [SectionVal.entriesOf] at he
        cases he
      · exact hq kv hold e he
    | some trs =>
      rw [htr] at h
      dsimp only at h
      cases hf : ((trs.drop 1).reverse).foldlM (rowStep seen (letterOf dv))
          (([] : List Entry), ([] : List (String × String)), b) with
      | error m => rw [hf] at h; simp only [except_bind_error] at h; cases h
      | ok st =>
        obtain ⟨parsed, gmeta, batch⟩ := st
        rw [hf] at h
        simp only [except_bind_ok] at h
        have hrows : (∀ e ∈ parsed, EntryInv seen batch e) ∧ b ⊆ batch := by
          have := foldlM_except_inv (rowStep seen (letterOf dv))
            (fun st => (∀ e ∈ st.1, EntryInv seen st.2.2 e) ∧ b ⊆ st.2.2)
            (by
              rintro ⟨es1, g1, b1⟩ cells ⟨es2', g2', b2'⟩ hq1 hstep
              have := rowStep_inv seen (letterOf dv) es1 g1 b1 cells es2' g2' b2' hstep hq1.1
              exact ⟨this.1, Finset.Subset.trans hq1.2 this.2⟩)
            ((trs.drop 1).reverse) ([], [], b) (parsed, gmeta, batch)
            ⟨(by intro e he; cases he), Finset.Subset.refl _⟩ hf
          exact this
        by_cases hcp : ["C", "P"].contains (letterOf dv)
        · rw [if_pos hcp] at h
          injection h with h1
          injection h1 with hs hb
          subst hs; subst hb
          refine ⟨?_, hrows.2⟩
          intro kv hkv e he
          rcases mem_dictSet _ _ _ _ hkv with hnew | hold
          · subst hnew
            exact hrows.1 e (mem_assembleGroups _ _ _ e he)
          · exact (hq kv hold e he).mono hrows.2
        · rw [if_neg hcp] at h
          injection h with h1
          injection h1 with hs hb
          subst hs; subst hb
          refine ⟨?_, hrows.2⟩
          intro kv hkv e he
          rcases mem_dictSet _ _ _ _ hkv with hnew | hold
          · subst hnew
            simp only [SectionVal.entriesOf] at he
            exact hrows.1 e he
          · exact (hq kv hold e he).mono hrows.2

/-- After a successful `parseBody`, every entry anywhere in the sections
satisfies the invariant against the final batch. -/
theorem parseBody_inv (seen : Finset String) (d : Document)
    (secs : List (String × SectionVal)) (ci : List (String × String)) (batch : Finset String)
    (h : parseBody seen d = .ok (secs, ci, batch)) :
    ∀ kv ∈ secs, ∀ e ∈ SectionVal.entriesOf kv.2, EntryInv seen batch e := by
  unfold parseBody at h
  dsimp only at h
  cases hf : ((d.divs.filter fun dv =>
      startsWithL dv.id.toList "zalozka".toList).foldlM (divStep seen)
        (([] : List (String × SectionVal)), (∅ : Finset String))) with
  | error m => rw [hf] at h; simp only [except_bind_error] at h; cases h
  | ok st =>
    obtain ⟨s2, b2⟩ := st
    rw [hf] at h
    simp only [except_bind_ok, Except.ok.injEq, Prod.mk.injEq] at h
    obtain ⟨hs, hci, hb⟩ := h
    have hall := foldlM_except_inv (divStep seen)
      (fun st => ∀ kv ∈ st.1, ∀ e ∈ SectionVal.entriesOf kv.2, EntryInv seen st.2 e)
      (by
        rintro ⟨ss, bb⟩ dv ⟨ss2, bb2⟩ hq hstep
        exact (divStep_inv seen ss bb dv ss2 bb2 hstep hq).1)
      _ ([], ∅) (s2, b2) (by intro kv hkv; cases hkv) hf
    intro kv hkv e he
    rw [← hb]
    exact hall kv (by rw [hs]; exact hkv) e he

/-- Entries of a success result are entries of some section value. -/
theorem mem_entriesOf_success (secs : List (String × SectionVal))
    (ci : List (String × String)) (e : Entry)
    (h : e ∈ (PyResult.success secs ci).entriesOf) :
    ∃ kv ∈ secs, e ∈ SectionVal.entriesOf kv.2 := by
  unfold PyResult.entriesOf at h
  obtain ⟨l, hl, he⟩ := List.mem_flatten.mp h
  obtain ⟨kv, hkv, hkl⟩ := List.mem_map.mp hl
  exact ⟨kv, hkv, hkl ▸ he⟩

/-- Every entry of any pass satisfies the invariant: `is_new` is computed
against the pre-pass seen-set and the id lands in the post-pass seen-set. -/
theorem fetch_entries_inv (c : ISIRChecker) (x : Except String Document) (e : Entry)
    (he : e ∈ ((fetch_and_parse c x).1).entriesOf) :
    e.is_new = (decide (e.id ∉ c.seen_ids) && decide (0 < c.seen_ids.card)) ∧
    e.id ∈ (fetch_and_parse c x).2.seen_ids := by
  cases x with
  | error m => cases he
  | ok soup =>
    cases hp : parseBody c.seen_ids soup with
    | error m =>
      unfold fetch_and_parse at he
      dsimp only at he
      rw [hp] at he
      cases he
    | ok t =>
      obtain ⟨s, ci, b⟩ := t
      unfold fetch_and_parse at he ⊢
      dsimp only at he ⊢
      rw [hp] at he ⊢
      obtain ⟨kv, hkv, hke⟩ := mem_entriesOf_success s ci e he
      have hinv := parseBody_inv c.seen_ids soup s ci b hp kv hkv e hke
      exact ⟨hinv.1, Finset.mem_union_right _ hinv.2⟩


/-! ### Claim C1 -/

/-- C1: for every pass, the `is_new` flag of every extracted record equals
(the seen-set was non-empty before the pass) AND (the record's id was not in
the seen-set before the pass); in particular every record of a first pass
against an empty seen-set gets `is_new = false`, and ids added by earlier
rows of the same pass play no role. -/
theorem is_new_from_pre_pass_seen_set :
    ∀ (c : ISIRChecker) (x : Except String Document) (e : Entry),
      e ∈ ((fetch_and_parse c x).1).entriesOf →
      e.is_new = (decide (e.id ∉ c.seen_ids) && decide (0 < c.seen_ids.card)) :=
  fun c x e he => (fetch_entries_inv c x e he).1

/-- Witness for C1: against the seen-set {"A1 - 1."}, the A2 record of
`docA` comes out with `is_new = true`, exactly the stated formula. -/
theorem is_new_from_pre_pass_seen_set_witness :
    (entOf "A2 - 1." true).is_new =
      (decide ((entOf "A2 - 1." true).id ∉ ({"A1 - 1."} : Finset String)) &&
       decide (0 < ({"A1 - 1."} : Finset String).card)) :=
  is_new_from_pre_pass_seen_set ⟨{"A1 - 1."}⟩ (.ok docA) (entOf "A2 - 1." true) (by decide)


/-! ### Independence of error shape, metadata and batch from the seen-set -/

theorem except_map_ok {ε α β : Type} (f : α → β) (a : α) :
    (Except.ok a : Except ε α).map f = .ok (f a) := rfl

theorem except_map_error {ε α β : Type} (f : α → β) (e : ε) :
    (Except.error e : Except ε α).map f = .error e := rfl

/-- The group-metadata dict and batch produced by a row, and whether it
raises, do not depend on the seen-set or the accumulated entries. -/
theorem rowStep_gb_indep (seen1 seen2 : Finset String) (letter : String)
    (es1 es2 : List Entry) (g : List (String × String)) (b : Finset String)
    (cells : List Cell) :
    (rowStep seen1 letter (es1, g, b) cells).map Prod.snd =
    (rowStep seen2 letter (es2, g, b) cells).map Prod.snd := by
  unfold rowStep
  dsimp only
  by_cases hl : cells.length < 5
  · rw [if_pos hl, if_pos hl]
    rfl
  · rw [if_neg hl, if_neg hl]
    cases hm : sectionMeta letter cells (cells.getD 0 defaultCell).text g with
    | error m => rfl
    | ok p => obtain ⟨ai, gg⟩ := p; rfl

/-- The same, lifted over the row loop. -/
theorem foldRows_gb_indep (seen1 seen2 : Finset String) (letter : String) :
    ∀ (rows : List (List Cell)) (es1 es2 : List Entry)
      (g : List (String × String)) (b : Finset String),
      (rows.foldlM (rowStep seen1 letter) (es1, g, b)).map Prod.snd =
      (rows.foldlM (rowStep seen2 letter) (es2, g, b)).map Prod.snd := by
  intro rows
  induction rows with
  | nil => intro es1 es2 g b; rfl
  | cons r t ih =>
    intro es1 es2 g b
    rw [List.foldlM_cons, List.foldlM_cons]
    have hstep := rowStep_gb_indep seen1 seen2 letter es1 es2 g b r
    cases h1 : rowStep seen1 letter (es1, g, b) r with
    | error m =>
      rw [h1] at hstep
      cases h2 : rowStep seen2 letter (es2, g, b) r with
      | error m2 =>
        rw [h2] at hstep
        simp only [except_map_error, Except.error.injEq] at hstep
        rw [hstep]
        simp only [except_bind_error]
      | ok st2 => rw [h2] at hstep; cases hstep
    | ok st1 =>
      cases h2 : rowStep seen2 letter (es2, g, b) r with
      | error m2 => rw [h1, h2] at hstep; cases hstep
      | ok st2 =>
        rw [h1, h2] at hstep
        simp only [except_map_ok, Except.ok.injEq] at hstep
        simp only [except_bind_ok]
        obtain ⟨p1, q1, r1⟩ := st1
        obtain ⟨p2, q2, r2⟩ := st2
        obtain ⟨hg, hb⟩ := Prod.mk.injEq .. ▸ hstep
        subst hg; subst hb
        exact ih p1 p2 q1 r1

/-- The batch a section container contributes, and whether it raises, do not
depend on the seen-set or the accumulated sections. -/
theorem divStep_b_indep (seen1 seen2 : Finset String)
    (secs1 secs2 : List (String × SectionVal)) (b : Finset String) (dv : SectionDiv) :
    (divStep seen1 (secs1, b) dv).map Prod.snd =
    (divStep seen2 (secs2, b) dv).map Prod.snd := by
  unfold divStep
  dsimp only
  by_cases hrec : !(fixedTags.contains (letterOf dv))
  · rw [if_pos hrec, if_pos hrec]
    rfl
  · rw [if_neg hrec, if_neg hrec]
    cases htr : dv.tableRows with
    | none => rfl
    | some trs =>
      dsimp only
      have hfold := foldRows_gb_indep seen1 seen2 (letterOf dv)
        ((trs.drop 1).reverse) [] [] [] b
      cases h1 : ((trs.drop 1).reverse).foldlM (rowStep seen1 (letterOf dv))
          (([] : List Entry), ([] : List (String × String)), b) with
      | error m =>
        rw [h1] at hfold
        cases h2 : ((trs.drop 1).reverse).foldlM (rowStep seen2 (letterOf dv))
            (([] : List Entry), ([] : List (String × String)), b) with
        | error m2 =>
          rw [h2] at hfold
          simp only [except_map_error, Except.error.injEq] at hfold
          rw [hfold]
          simp only [except_bind_error]
        | ok st2 => rw [h2] at hfold; cases hfold
      | ok st1 =>
        cases h2 : ((trs.drop 1).reverse).foldlM (rowStep seen2 (letterOf dv))
            (([] : List Entry), ([] : List (String × String)), b) with
        | error m2 => rw [h1, h2] at hfold; cases hfold
        | ok st2 =>
          rw [h1, h2] at hfold
          simp only [except_map_ok, Except.ok.injEq] at hfold
          simp only [except_bind_ok]
          obtain ⟨p1, q1, r1⟩ := st1
          obtain ⟨p2, q2, r2⟩ := st2
          obtain ⟨hg, hb⟩ := Prod.mk.injEq .. ▸ hfold
          subst hg; subst hb
          by_cases hcp : ["C", "P"].contains (letterOf dv)
          · rw [if_pos hcp, if_pos hcp]; rfl
          · rw [if_neg hcp, if_neg hcp]; rfl

/-- The same, lifted over the sections loop. -/
theorem foldDivs_b_indep (seen1 seen2 : Finset String) :
    ∀ (divs : List SectionDiv) (secs1 secs2 : List (String × SectionVal)) (b : Finset String),
      (divs.foldlM (divStep seen1) (secs1, b)).map Prod.snd =
      (divs.foldlM (divStep seen2) (secs2, b)).map Prod.snd := by
  intro divs
  induction divs with
  | nil => intro secs1 secs2 b; rfl
  | cons dv t ih =>
    intro secs1 secs2 b
    rw [List.foldlM_cons, List.foldlM_cons]
    have hstep := divStep_b_indep seen1 seen2 secs1 secs2 b dv
    cases h1 : divStep seen1 (secs1, b) dv with
    | error m =>
      rw [h1] at hstep
      cases h2 : divStep seen2 (secs2, b) dv with
      | error m2 =>
        rw [h2] at hstep
        simp only [except_map_error, Except.error.injEq] at hstep
        rw [hstep]
        simp only [except_bind_error]
      | ok st2 => rw [h2] at hstep; cases hstep
    | ok st1 =>
      cases h2 : divStep seen2 (secs2, b) dv with
      | error m2 => rw [h1, h2] at hstep; cases hstep
      | ok st2 =>
        rw [h1, h2] at hstep
        simp only [except_map_ok] at hstep
        simp only [except_bind_ok]
        obtain ⟨p1, q1⟩ := st1
        obtain ⟨p2, q2⟩ := st2
        dsimp only at hstep
        injection hstep with hq
        subst hq
        exact ih p1 p2 q1

/-- The case-info and batch of a pass, and whether it fails, do not depend
on the seen-set. -/
theorem parseBody_indep (seen1 seen2 : Finset String) (d : Document) :
    (parseBody seen1 d).map (fun t => (t.2.1, t.2.2)) =
    (parseBody seen2 d).map (fun t => (t.2.1, t.2.2)) := by
  unfold parseBody
  dsimp only
  have hfold := foldDivs_b_indep seen1 seen2
    (d.divs.filter fun dv => startsWithL dv.id.toList "zalozka".toList) [] [] ∅
  cases h1 : ((d.divs.filter fun dv =>
      startsWithL dv.id.toList "zalozka".toList).foldlM (divStep seen1)
        (([] : List (String × SectionVal)), (∅ : Finset String))) with
  | error m =>
    rw [h1] at hfold
    cases h2 : ((d.divs.filter fun dv =>
        startsWithL dv.id.toList "zalozka".toList).foldlM (divStep seen2)
          (([] : List (String × SectionVal)), (∅ : Finset String))) with
    | error m2 =>
      rw [h2] at hfold
      simp only [except_map_error, Except.error.injEq] at hfold
      subst hfold
      rfl
    | ok st2 => rw [h2] at hfold; cases hfold
  | ok st1 =>
    cases h2 : ((d.divs.filter fun dv =>
        startsWithL dv.id.toList "zalozka".toList).foldlM (divStep seen2)
          (([] : List (String × SectionVal)), (∅ : Finset String))) with
    | error m2 => rw [h1, h2] at hfold; cases hfold
    | ok st2 =>
      rw [h1, h2] at hfold
      simp only [except_map_ok] at hfold
      obtain ⟨p1, q1⟩ := st1
      obtain ⟨p2, q2⟩ := st2
      dsimp only at hfold
      injection hfold with hq
      subst hq
      rfl


/-! ### Claim C2 -/

/-- One pass never shrinks the seen-set. -/
theorem fetch_seen_mono (c : ISIRChecker) (x : Except String Document) :
    c.seen_ids ⊆ (fetch_and_parse c x).2.seen_ids := by
  cases x with
  | error m => exact Finset.Subset.refl _
  | ok soup =>
    unfold fetch_and_parse
    dsimp only
    cases hp : parseBody c.seen_ids soup with
    | error m => exact Finset.Subset.refl _
    | ok t =>
      obtain ⟨s, ci, b⟩ := t
      exact Finset.subset_union_left

/-- Sequencing passes never shrinks the seen-set. -/
theorem runPasses_seen_mono :
    ∀ (fs : List (Except String Document)) (c : ISIRChecker),
      c.seen_ids ⊆ (runPasses c fs).seen_ids := by
  intro fs
  induction fs with
  | nil => intro c; exact Finset.Subset.refl _
  | cons f t ih =>
    intro c
    unfold runPasses
    rw [List.foldl_cons]
    exact Finset.Subset.trans (fetch_seen_mono c f) (ih (fetch_and_parse c f).2)

theorem runPasses_append (c : ISIRChecker) (l1 l2 : List (Except String Document)) :
    runPasses c (l1 ++ l2) = runPasses (runPasses c l1) l2 := by
  unfold runPasses
  rw [List.foldl_append]

/-- C2: the seen-set grows monotonically — after any sequence of passes it is
a superset of its value after any earlier point, no identity is ever removed
— and re-processing the identical document right after a successful pass
yields `is_new = false` for every record. -/
theorem seen_set_monotone_and_idempotent :
    (∀ (c : ISIRChecker) (x : Except String Document),
      c.seen_ids ⊆ (fetch_and_parse c x).2.seen_ids) ∧
    (∀ (c : ISIRChecker) (fs : List (Except String Document)) (i : Nat),
      (runPasses c (fs.take i)).seen_ids ⊆ (runPasses c fs).seen_ids) ∧
    (∀ (c : ISIRChecker) (d : Document) (r1 : PyResult) (c1 : ISIRChecker),
      fetch_and_parse c (.ok d) = (r1, c1) → r1.isError = false →
      ∀ e ∈ ((fetch_and_parse c1 (.ok d)).1).entriesOf, e.is_new = false) := by
  refine ⟨fetch_seen_mono, ?_, ?_⟩
  · intro c fs i
    conv_rhs => rw [← List.take_append_drop i fs]
    rw [runPasses_append]
    exact runPasses_seen_mono _ _
  · intro c d r1 c1 h hiserr e he
    cases hp1 : parseBody c.seen_ids d with
    | error m =>
      unfold fetch_and_parse at h
      dsimp only at h
      rw [hp1] at h
      injection h with hr hc
      rw [← hr] at hiserr
      cases hiserr
    | ok t1 =>
      obtain ⟨s1, ci1, b1⟩ := t1
      unfold fetch_and_parse at h
      dsimp only at h
      rw [hp1] at h
      injection h with hr hc
      cases hp2 : parseBody c1.seen_ids d with
      | error m =>
        unfold fetch_and_parse at he
        dsimp only at he
        rw [hp2] at he
        cases he
      | ok t2 =>
        obtain ⟨s2, ci2, b2⟩ := t2
        unfold fetch_and_parse at he
        dsimp only at he
        rw [hp2] at he
        obtain ⟨kv, hkv, hke⟩ := mem_entriesOf_success s2 ci2 e he
        have hinv := parseBody_inv c1.seen_ids d s2 ci2 b2 hp2 kv hkv e hke
        have hbeq : b2 = b1 := by
          have hi := parseBody_indep c1.seen_ids c.seen_ids d
          rw [hp1, hp2] at hi
          simp only [except_map_ok, Except.ok.injEq, Prod.mk.injEq] at hi
          exact hi.2
        have hidin : e.id ∈ c1.seen_ids := by
          rw [← hc]
          dsimp only
          exact Finset.mem_union_right _ (hbeq ▸ hinv.2)
        rw [hinv.1]
        simp [hidin]

/-- Witness for C2, applying all three parts at concrete inputs, ending with
the re-processing of `docA` right after a successful pass. -/
theorem seen_set_monotone_and_idempotent_witness :
    (({} : Finset String) ⊆ (fetch_and_parse ⟨{}⟩ (.ok docA)).2.seen_ids) ∧
    ((runPasses ⟨{}⟩ ([.ok docA].take 0)).seen_ids ⊆
      (runPasses ⟨{}⟩ [.ok docA]).seen_ids) ∧
    (entOf "A1 - 1." false).is_new = false :=
  ⟨seen_set_monotone_and_idempotent.1 ⟨{}⟩ (.ok docA),
   seen_set_monotone_and_idempotent.2.1 ⟨{}⟩ [.ok docA] 0,
   seen_set_monotone_and_idempotent.2.2 ⟨{}⟩ docA
     (fetch_and_parse ⟨{}⟩ (.ok docA)).1 (fetch_and_parse ⟨{}⟩ (.ok docA)).2
     rfl rfl (entOf "A1 - 1." false) (by decide)⟩


/-! ### Claim C5 -/

/-- Key shape of one `divStep`: unrecognized containers change nothing, a
recognized container sets exactly its own key. -/
theorem divStep_keys (seen : Finset String)
    (secs : List (String × SectionVal)) (b : Finset String) (dv : SectionDiv)
    (secs2 : List (String × SectionVal)) (b2 : Finset String)
    (h : divStep seen (secs, b) dv = .ok (secs2, b2)) :
    (fixedTags.contains (letterOf dv) = false ∧ secs2 = secs) ∨
    (fixedTags.contains (letterOf dv) = true ∧
      ∃ v, secs2 = dictSet secs (letterOf dv) v) := by
  unfold divStep at h
  dsimp only at h
  by_cases hrec : !(fixedTags.contains (letterOf dv))
  · rw [if_pos hrec] at h
    injection h with h1
    injection h1 with hs hb
    left
    exact ⟨by simpa using hrec, hs.symm⟩
  · rw [if_neg hrec] at h
    right
    refine ⟨by simpa using hrec, ?_⟩
    cases htr : dv.tableRows with
    | none =>
      rw [htr] at h
      injection h with h1
      injection h1 with hs hb
      exact ⟨SectionVal.flat [], hs.symm⟩
    | some trs =>
      rw [htr] at h
      dsimp only at h
      cases hf : ((trs.drop 1).reverse).foldlM (rowStep seen (letterOf dv))
          (([] : List Entry), ([] : List (String × String)), b) with
      | error m => rw [hf] at h; simp only [except_bind_error] at h; cases h
      | ok st =>
        obtain ⟨parsed, gmeta, batch⟩ := st
        rw [hf] at h
        simp only [except_bind_ok] at h
        by_cases hcp : ["C", "P"].contains (letterOf dv)
        · rw [if_pos hcp] at h
          injection h with h1
          injection h1 with hs hb
          exact ⟨_, hs.symm⟩
        · rw [if_neg hcp] at h
          injection h with h1
          injection h1 with hs hb
          exact ⟨_, hs.symm⟩

/-- Keys after the sections loop: every key is a recognized letter of a
processed container, and every recognized processed container's letter is a
key. -/
theorem foldDivs_keys (seen : Finset String) :
    ∀ (divs : List SectionDiv) (secs : List (String × SectionVal)) (b : Finset String)
      (secs2 : List (String × SectionVal)) (b2 : Finset String),
      divs.foldlM (divStep seen) (secs, b) = .ok (secs2, b2) →
      (∀ kv ∈ secs2, kv ∈ secs ∨
        (kv.1 ∈ fixedTags ∧ kv.1 ∈ divs.map letterOf)) ∧
      (∀ L, dictHas secs L = true → dictHas secs2 L = true) ∧
      (∀ dv ∈ divs, fixedTags.contains (letterOf dv) = true →
        dictHas secs2 (letterOf dv) = true) := by
  intro divs
  induction divs with
  | nil =>
    intro secs b secs2 b2 h
    simp only [List.foldlM_nil, except_pure, Except.ok.injEq, Prod.mk.injEq] at h
    obtain ⟨hs, hb⟩ := h
    subst hs
    exact ⟨fun kv hkv => Or.inl hkv, fun L h => h, fun dv hdv => absurd hdv (by simp)⟩
  | cons dv t ih =>
    intro secs b secs2 b2 h
    rw [List.foldlM_cons] at h
    cases h1 : divStep seen (secs, b) dv with
    | error m => rw [h1] at h; simp only [except_bind_error] at h; cases h
    | ok st1 =>
      obtain ⟨s1, bb1⟩ := st1
      rw [h1] at h
      simp only [except_bind_ok] at h
      obtain ⟨hmem, hpres, hall⟩ := ih s1 bb1 secs2 b2 h
      rcases divStep_keys seen secs b dv s1 bb1 h1 with ⟨hfix, hs⟩ | ⟨hfix, v, hs⟩
      · subst hs
        refine ⟨?_, hpres, ?_⟩
        · intro kv hkv
          rcases hmem kv hkv with h2 | h2
          · exact Or.inl h2
          · exact Or.inr ⟨h2.1, by simp [h2.2]⟩
        · intro dv2 hdv2 hrec2
          rcases List.mem_cons.mp hdv2 with he | he
          · rw [he] at hrec2; rw [hrec2] at hfix; cases hfix
          · exact hall dv2 he hrec2
      · subst hs
        refine ⟨?_, ?_, ?_⟩
        · intro kv hkv
          rcases hmem kv hkv with h2 | h2
          · rcases mem_dictSet _ _ _ _ h2 with hnew | hold
            · right
              subst hnew
              constructor
              · have : letterOf dv ∈ fixedTags := by
                  simpa [List.elem_iff] using hfix
                simpa using this
              · simp
            · exact Or.inl hold
          · exact Or.inr ⟨h2.1, by simp [h2.2]⟩
        · intro L hL
          exact hpres L (by rw [dictHas_dictSet]; simp [hL])
        · intro dv2 hdv2 hrec2
          rcases List.mem_cons.mp hdv2 with he | he
          · subst he
            exact hpres _ (by rw [dictHas_dictSet]; simp)
          · exact hall dv2 he hrec2

/-- A recognized container with no inner table binds its tag to the empty
flat sequence and leaves the batch alone. -/
theorem divStep_tableless (seen : Finset String)
    (secs : List (String × SectionVal)) (b : Finset String) (dv : SectionDiv)
    (hrec : fixedTags.contains (letterOf dv) = true)
    (htr : dv.tableRows = none) :
    divStep seen (secs, b) dv = .ok (dictSet secs (letterOf dv) (SectionVal.flat []), b) := by
  unfold divStep
  dsimp only
  rw [if_neg (show ¬(!(fixedTags.contains (letterOf dv))) = true by rw [hrec]; simp)]
  rw [htr]

/-- One `divStep` touches no key other than its own container's tag. -/
theorem divStep_other_key (seen : Finset String)
    (secs : List (String × SectionVal)) (b : Finset String) (dv : SectionDiv)
    (secs2 : List (String × SectionVal)) (b2 : Finset String)
    (h : divStep seen (secs, b) dv = .ok (secs2, b2))
    (L : String) (hL : L ≠ letterOf dv) :
    dictGet? secs2 L = dictGet? secs L := by
  rcases divStep_keys seen secs b dv secs2 b2 h with ⟨-, hs⟩ | ⟨-, v, hs⟩
  · rw [hs]
  · rw [hs, dictGet?_dictSet, if_neg hL]

/-- Over the sections loop: if every processed container bearing tag `L`
lacks its inner table, then `L` is bound to the empty flat sequence as soon
as one such container occurs, and is untouched otherwise. -/
theorem foldDivs_tableless (seen : Finset String) :
    ∀ (divs : List SectionDiv) (secs : List (String × SectionVal)) (b : Finset String)
      (secs2 : List (String × SectionVal)) (b2 : Finset String),
      divs.foldlM (divStep seen) (secs, b) = .ok (secs2, b2) →
      ∀ L, fixedTags.contains L = true →
        (∀ dv ∈ divs, letterOf dv = L → dv.tableRows = none) →
        (L ∈ divs.map letterOf → dictGet? secs2 L = some (SectionVal.flat [])) ∧
        (L ∉ divs.map letterOf → dictGet? secs2 L = dictGet? secs L) := by
  intro divs
  induction divs with
  | nil =>
    intro secs b secs2 b2 h L hLf htl
    simp only [List.foldlM_nil, except_pure, Except.ok.injEq, Prod.mk.injEq] at h
    obtain ⟨hs, -⟩ := h
    subst hs
    exact ⟨(fun hmem => absurd hmem (by simp)), fun _ => rfl⟩
  | cons dv t ih =>
    intro secs b secs2 b2 h L hLf htl
    rw [List.foldlM_cons] at h
    by_cases hdvL : letterOf dv = L
    · have htr : dv.tableRows = none := htl dv (by simp) hdvL
      rw [divStep_tableless seen secs b dv (by rw [hdvL]; exact hLf) htr] at h
      simp only [except_bind_ok] at h
      have iht := ih (dictSet secs (letterOf dv) (SectionVal.flat [])) b secs2 b2 h L hLf
        (fun dv2 hdv2 => htl dv2 (by simp [hdv2]))
      constructor
      · intro _
        by_cases hmem : L ∈ t.map letterOf
        · exact iht.1 hmem
        · rw [iht.2 hmem, hdvL, dictGet?_dictSet, if_pos rfl]
      · intro hmem
        exact absurd (by simp [hdvL] : L ∈ (dv :: t).map letterOf) hmem
    · cases h1 : divStep seen (secs, b) dv with
      | error m => rw [h1] at h; simp only [except_bind_error] at h; cases h
      | ok st1 =>
        obtain ⟨s1, bb1⟩ := st1
        rw [h1] at h
        simp only [except_bind_ok] at h
        have hother := divStep_other_key seen secs b dv s1 bb1 h1 L
          (fun hc => hdvL hc.symm)
        have iht := ih s1 bb1 secs2 b2 h L hLf
          (fun dv2 hdv2 => htl dv2 (by simp [hdv2]))
        constructor
        · intro hmem
          rw [List.map_cons] at hmem
          rcases List.mem_cons.mp hmem with h2 | h2
          · exact absurd h2.symm hdvL
          · exact iht.1 h2
        · intro hmem
          have hmt : L ∉ t.map letterOf := by
            intro hc
            exact hmem (by rw [List.map_cons]; exact List.mem_cons_of_mem _ hc)
          rw [iht.2 hmt, hother]

/-- C5 counterexample: a document with no section containers parses
successfully to an empty sections mapping — the key "A" is missing rather
than bound to an empty sequence. -/
theorem sections_missing_key_counterexample :
    (fetch_and_parse ⟨∅⟩ (.ok emptyDoc)).1 = .success [] [] ∧
    dictHas ([] : List (String × SectionVal)) "A" = false :=
  ⟨rfl, rfl⟩

/-- C5 amended: a successful result's sections mapping has entries exactly
for the recognized (fixed-set) tags of containers present in the document:
every key is such a tag, every such tag is a key, containers with other tags
are ignored, a recognized container lacking its inner table binds its tag to
the empty flat sequence, and a tag with no container yields a missing key
(which the rendering shell treats as empty). -/
theorem sections_keys_match_present_containers :
    ∀ (c : ISIRChecker) (d : Document) (secs : List (String × SectionVal))
      (ci : List (String × String)) (c2 : ISIRChecker),
      fetch_and_parse c (.ok d) = (.success secs ci, c2) →
      (∀ kv ∈ secs, kv.1 ∈ fixedTags ∧ kv.1 ∈ recognizedLetters d) ∧
      (∀ L ∈ recognizedLetters d, dictHas secs L = true) ∧
      (∀ L ∈ recognizedLetters d,
        (∀ dv ∈ d.divs.filter (fun dv => startsWithL dv.id.toList "zalozka".toList),
          letterOf dv = L → dv.tableRows = none) →
        dictGet? secs L = some (SectionVal.flat [])) := by
  intro c d secs ci c2 h
  unfold fetch_and_parse at h
  dsimp only at h
  cases hp : parseBody c.seen_ids d with
  | error m => rw [hp] at h; cases h
  | ok t =>
    obtain ⟨s, ci1, b⟩ := t
    rw [hp] at h
    injection h with hr hc
    injection hr with hs hci
    subst hs
    unfold parseBody at hp
    dsimp only at hp
    cases hf : ((d.divs.filter fun dv =>
        startsWithL dv.id.toList "zalozka".toList).foldlM (divStep c.seen_ids)
          (([] : List (String × SectionVal)), (∅ : Finset String))) with
    | error m => rw [hf] at hp; simp only [except_bind_error] at hp; cases hp
    | ok st =>
      obtain ⟨s2, b2⟩ := st
      rw [hf] at hp
      simp only [except_bind_ok, Except.ok.injEq, Prod.mk.injEq] at hp
      obtain ⟨hs2, hcix, hbx⟩ := hp
      subst hs2
      obtain ⟨hmem, hpres, hall⟩ := foldDivs_keys c.seen_ids _ [] ∅ _ _ hf
      refine ⟨?_, ?_, ?_⟩
      · intro kv hkv
        rcases hmem kv hkv with h2 | h2
        · cases h2
        · refine ⟨h2.1, ?_⟩
          unfold recognizedLetters
          rw [List.mem_filter]
          refine ⟨h2.2, ?_⟩
          simpa [List.elem_iff] using h2.1
      · intro L hL
        unfold recognizedLetters at hL
        rw [List.mem_filter] at hL
        obtain ⟨hLm, hLf⟩ := hL
        obtain ⟨dv, hdv, hdL⟩ := List.mem_map.mp hLm
        rw [← hdL]
        exact hall dv hdv (by rw [hdL]; simpa [List.elem_iff] using hLf)
      · intro L hL htl
        unfold recognizedLetters at hL
        rw [List.mem_filter] at hL
        obtain ⟨hLm, hLf⟩ := hL
        exact (foldDivs_tableless c.seen_ids _ [] ∅ _ _ hf L
          (by simpa [List.elem_iff] using hLf) htl).1 hLm

/-- Witness for C5 amended: at `docA` the only key is "A" and "A" is bound;
at `docA0`, whose A container has no table, "A" is bound to the empty flat
sequence. -/
theorem sections_keys_match_present_containers_witness :
    (("A", SectionVal.flat [entOf "A1 - 1." false, entOf "A2 - 1." false]) :
        String × SectionVal).1 ∈ fixedTags ∧
    dictHas [("A", SectionVal.flat [entOf "A1 - 1." false, entOf "A2 - 1." false])] "A" = true ∧
    dictGet? [("A", SectionVal.flat [])] "A" = some (SectionVal.flat []) :=
  ⟨((sections_keys_match_present_containers ⟨∅⟩ docA _ _ _ rfl).1 _ (by decide)).1,
   (sections_keys_match_present_containers ⟨∅⟩ docA _ _ _ rfl).2.1 "A" (by decide),
   (sections_keys_match_present_containers ⟨∅⟩ docA0 _ _ _ rfl).2.2 "A" (by decide)
     (by decide)⟩


/-! ### Claim C6: the natural order is a total preorder and the pipeline
sorts group keys by it -/

theorem natCmp_eq_iff (a b : Nat) : natCmp a b = .eq ↔ a = b := by
  unfold natCmp
  split_ifs with h1 h2
  · exact ⟨(fun h => by cases h), (fun h => by omega)⟩
  · exact ⟨(fun h => by cases h), (fun h => by omega)⟩
  · exact ⟨(fun _ => by omega), (fun _ => rfl)⟩

theorem natCmp_swap (a b : Nat) : natCmp a b = (natCmp b a).swap := by
  unfold natCmp
  split_ifs <;> first | rfl | omega

theorem natCmp_lt_trans {a b c : Nat} (h1 : natCmp a b = .lt) (h2 : natCmp b c = .lt) :
    natCmp a c = .lt := by
  unfold natCmp at *
  split_ifs at * <;> first | rfl | omega

theorem charListCmp_eq_iff : ∀ (l1 l2 : List Char), charListCmp l1 l2 = .eq ↔ l1 = l2 := by
  intro l1
  induction l1 with
  | nil => intro l2; cases l2 <;> simp [charListCmp]
  | cons a t ih =>
    intro l2
    cases l2 with
    | nil => simp [charListCmp]
    | cons b t2 =>
      unfold charListCmp
      cases h : natCmp a.toNat b.toNat with
      | eq =>
        have hab : a = b := Char.ext (UInt32.toNat.inj ((natCmp_eq_iff _ _).mp h))
        simp [hab, ih]
      | lt =>
        constructor
        · intro hc; cases hc
        · intro hc
          injection hc with h1 h2
          rw [h1] at h
          rw [(natCmp_eq_iff _ _).mpr rfl] at h
          cases h
      | gt =>
        constructor
        · intro hc; cases hc
        · intro hc
          injection hc with h1 h2
          rw [h1] at h
          rw [(natCmp_eq_iff _ _).mpr rfl] at h
          cases h

theorem charListCmp_swap : ∀ (l1 l2 : List Char), charListCmp l1 l2 = (charListCmp l2 l1).swap := by
  intro l1
  induction l1 with
  | nil => intro l2; cases l2 <;> rfl
  | cons a t ih =>
    intro l2
    cases l2 with
    | nil => rfl
    | cons b t2 =>
      unfold charListCmp
      rw [natCmp_swap]
      cases h : natCmp b.toNat a.toNat <;> simp [Ordering.swap, ih]

theorem charListCmp_lt_trans :
    ∀ {l1 l2 l3 : List Char}, charListCmp l1 l2 = .lt → charListCmp l2 l3 = .lt →
      charListCmp l1 l3 = .lt := by
  intro l1
  induction l1 with
  | nil =>
    intro l2 l3 h1 h2
    cases l2 with
    | nil => cases h1
    | cons b t2 =>
      cases l3 with
      | nil => cases h2
      | cons c t3 => rfl
  | cons a t ih =>
    intro l2 l3 h1 h2
    cases l2 with
    | nil => cases h1
    | cons b t2 =>
      cases l3 with
      | nil => cases h2
      | cons c t3 =>
        unfold charListCmp at h1 h2 ⊢
        cases hab : natCmp a.toNat b.toNat with
        | gt => rw [hab] at h1; cases h1
        | eq =>
          have : a = b := Char.ext (UInt32.toNat.inj ((natCmp_eq_iff _ _).mp hab))
          subst this
          rw [hab] at h1
          cases hbc : natCmp a.toNat c.toNat with
          | lt => rfl
          | eq => rw [hbc] at h2; exact ih h1 h2
          | gt => rw [hbc] at h2; cases h2
        | lt =>
          rw [hab] at h1
          cases hbc : natCmp b.toNat c.toNat with
          | lt => rw [natCmp_lt_trans hab hbc]
          | eq =>
            have : b = c := Char.ext (UInt32.toNat.inj ((natCmp_eq_iff _ _).mp hbc))
            subst this
            rw [hab]
          | gt => rw [hbc] at h2; cases h2

theorem elemCmp_eq_iff (x y : String ⊕ Nat) : elemCmp x y = .eq ↔ x = y := by
  cases x with
  | inl s =>
    cases y with
    | inl t =>
      simp only [elemCmp]
      rw [charListCmp_eq_iff]
      constructor
      · intro h
        exact congrArg Sum.inl (String.ext h)
      · intro h
        injection h with h1
        rw [h1]
    | inr n => simp [elemCmp]
  | inr m =>
    cases y with
    | inl t => simp [elemCmp]
    | inr n =>
      simp only [elemCmp]
      rw [natCmp_eq_iff]
      constructor
      · intro h; rw [h]
      · intro h; injection h with h1

theorem elemCmp_swap (x y : String ⊕ Nat) : elemCmp x y = (elemCmp y x).swap := by
  cases x <;> cases y <;> simp only [elemCmp]
  · rw [charListCmp_swap]
  · rfl
  · rfl
  · rw [natCmp_swap]

theorem elemCmp_lt_trans {x y z : String ⊕ Nat}
    (h1 : elemCmp x y = .lt) (h2 : elemCmp y z = .lt) : elemCmp x z = .lt := by
  cases x <;> cases y <;> cases z <;> simp only [elemCmp] at * <;>
    first
      | rfl
      | exact absurd h1 (by decide)
      | exact absurd h2 (by decide)
      | exact charListCmp_lt_trans h1 h2
      | exact natCmp_lt_trans h1 h2

theorem keyCmp_eq_iff : ∀ (k1 k2 : List (String ⊕ Nat)), keyCmp k1 k2 = .eq ↔ k1 = k2 := by
  intro k1
  induction k1 with
  | nil => intro k2; cases k2 <;> simp [keyCmp]
  | cons a t ih =>
    intro k2
    cases k2 with
    | nil => simp [keyCmp]
    | cons b t2 =>
      unfold keyCmp
      cases h : elemCmp a b with
      | eq =>
        have hab : a = b := (elemCmp_eq_iff _ _).mp h
        simp [hab, ih]
      | lt =>
        constructor
        · intro hc; cases hc
        · intro hc
          injection hc with h1 h2
          rw [h1, (elemCmp_eq_iff b b).mpr rfl] at h
          cases h
      | gt =>
        constructor
        · intro hc; cases hc
        · intro hc
          injection hc with h1 h2
          rw [h1, (elemCmp_eq_iff b b).mpr rfl] at h
          cases h

theorem keyCmp_swap : ∀ (k1 k2 : List (String ⊕ Nat)), keyCmp k1 k2 = (keyCmp k2 k1).swap := by
  intro k1
  induction k1 with
  | nil => intro k2; cases k2 <;> rfl
  | cons a t ih =>
    intro k2
    cases k2 with
    | nil => rfl
    | cons b t2 =>
      unfold keyCmp
      rw [elemCmp_swap]
      cases h : elemCmp b a <;> simp [Ordering.swap, ih]

theorem keyCmp_lt_trans :
    ∀ {k1 k2 k3 : List (String ⊕ Nat)}, keyCmp k1 k2 = .lt → keyCmp k2 k3 = .lt →
      keyCmp k1 k3 = .lt := by
  intro k1
  induction k1 with
  | nil =>
    intro k2 k3 h1 h2
    cases k2 with
    | nil => cases h1
    | cons b t2 =>
      cases k3 with
      | nil => cases h2
      | cons c t3 => rfl
  | cons a t ih =>
    intro k2 k3 h1 h2
    cases k2 with
    | nil => cases h1
    | cons b t2 =>
      cases k3 with
      | nil => cases h2
      | cons c t3 =>
        unfold keyCmp at h1 h2 ⊢
        cases hab : elemCmp a b with
        | gt => rw [hab] at h1; cases h1
        | eq =>
          have : a = b := (elemCmp_eq_iff _ _).mp hab
          subst this
          rw [hab] at h1
          cases hbc : elemCmp a c with
          | lt => rfl
          | eq => rw [hbc] at h2; exact ih h1 h2
          | gt => rw [hbc] at h2; cases h2
        | lt =>
          rw [hab] at h1
          cases hbc : elemCmp b c with
          | lt => rw [elemCmp_lt_trans hab hbc]
          | eq =>
            have : b = c := (elemCmp_eq_iff _ _).mp hbc
            subst this
            rw [hab]
          | gt => rw [hbc] at h2; cases h2

theorem keyCmp_le_trans {ka kb kc : List (String ⊕ Nat)}
    (h1 : keyCmp ka kb ≠ .gt) (h2 : keyCmp kb kc ≠ .gt) : keyCmp ka kc ≠ .gt := by
  cases hab : keyCmp ka kb with
  | gt => exact absurd hab h1
  | eq => rw [(keyCmp_eq_iff _ _).mp hab]; exact h2
  | lt =>
    cases hbc : keyCmp kb kc with
    | gt => exact absurd hbc h2
    | eq => rw [← (keyCmp_eq_iff _ _).mp hbc, hab]; simp
    | lt => rw [keyCmp_lt_trans hab hbc]; simp

/-- The comparison Python sorts the group keys by is transitive. -/
theorem natKeyLe_trans (a b c : String) (h1 : natKeyLe a b = true) (h2 : natKeyLe b c = true) :
    natKeyLe a c = true := by
  unfold natKeyLe at *
  rw [decide_eq_true_iff] at *
  exact keyCmp_le_trans h1 h2

/-- The comparison Python sorts the group keys by is total. -/
theorem natKeyLe_total (a b : String) : (natKeyLe a b || natKeyLe b a) = true := by
  cases h : keyCmp (natural_sort_key a) (natural_sort_key b) with
  | gt =>
    have hba : keyCmp (natural_sort_key b) (natural_sort_key a) = .lt := by
      rw [keyCmp_swap, h]; rfl
    simp [natKeyLe, hba]
  | lt => simp [natKeyLe, h]
  | eq => simp [natKeyLe, h]


/-! ### Sortedness of the stable sort -/

theorem mem_insertLe (le : α → α → Bool) (x : α) :
    ∀ (l : List α) (a : α), a ∈ insertLe le x l ↔ a = x ∨ a ∈ l := by
  intro l
  induction l with
  | nil => intro a; simp [insertLe]
  | cons y ys ih =>
    intro a
    unfold insertLe
    by_cases hle : le y x
    · rw [if_pos hle]
      simp only [List.mem_cons, ih]
      tauto
    · rw [if_neg hle]
      simp only [List.mem_cons]

theorem insertLe_pairwise (le : α → α → Bool)
    (htrans : ∀ a b c, le a b = true → le b c = true → le a c = true)
    (htotal : ∀ a b, (le a b || le b a) = true) (x : α) :
    ∀ (l : List α), l.Pairwise (fun a b => le a b = true) →
      (insertLe le x l).Pairwise (fun a b => le a b = true) := by
  intro l
  induction l with
  | nil => intro _; simp [insertLe]
  | cons y ys ih =>
    intro h
    rw [List.pairwise_cons] at h
    obtain ⟨hy, hys⟩ := h
    unfold insertLe
    by_cases hle : le y x
    · rw [if_pos hle]
      rw [List.pairwise_cons]
      constructor
      · intro b hb
        rcases (mem_insertLe le x ys b).mp hb with hb | hb
        · rw [hb]; exact hle
        · exact hy b hb
      · exact ih hys
    · rw [if_neg hle]
      have hxy : le x y = true := by
        have := htotal y x
        rw [Bool.or_eq_true] at this
        rcases this with h1 | h1
        · exact absurd h1 hle
        · exact h1
      rw [List.pairwise_cons]
      constructor
      · intro b hb
        rcases List.mem_cons.mp hb with hb | hb
        · rw [hb]; exact hxy
        · exact htrans x y b hxy (hy b hb)
      · rw [List.pairwise_cons]
        exact ⟨hy, hys⟩

theorem pySorted_pairwise (le : α → α → Bool)
    (htrans : ∀ a b c, le a b = true → le b c = true → le a c = true)
    (htotal : ∀ a b, (le a b || le b a) = true) (l : List α) :
    (pySorted le l).Pairwise (fun a b => le a b = true) := by
  have hgen : ∀ (l2 : List α) (acc : List α),
      acc.Pairwise (fun a b => le a b = true) →
      (l2.foldl (fun acc x => insertLe le x acc) acc).Pairwise (fun a b => le a b = true) := by
    intro l2
    induction l2 with
    | nil => intro acc h; exact h
    | cons x t ih =>
      intro acc h
      rw [List.foldl_cons]
      exact ih _ (insertLe_pairwise le htrans htotal x acc h)
  exact hgen l [] (by simp)

/-- The keys of the assembled groups are exactly the sorted group keys, so
they are pairwise in natural order. -/
theorem assembleGroups_sorted (letter : String) (entries : List Entry)
    (gmeta : List (String × String)) :
    ((assembleGroups letter entries gmeta).map Group.group).Pairwise
      (fun a b => natKeyLe a b = true) := by
  unfold assembleGroups
  rw [List.map_map]
  have hid : (Group.group ∘ fun k =>
      ({ group := k,
         entries := (dictGet? (entries.foldl (addToGroups letter) []) k).getD [],
         metadata := (dictGet? gmeta k).getD "" } : Group)) = fun k => k :=
    funext fun k => rfl
  rw [hid]
  rw [List.map_id']
  exact pySorted_pairwise natKeyLe natKeyLe_trans natKeyLe_total _

/-- Every section value in a pass is a flat list or an assembled grouping. -/
theorem divStep_val_shape (seen : Finset String)
    (secs : List (String × SectionVal)) (b : Finset String) (dv : SectionDiv)
    (secs2 : List (String × SectionVal)) (b2 : Finset String)
    (h : divStep seen (secs, b) dv = .ok (secs2, b2)) :
    ∀ kv ∈ secs2, kv ∈ secs ∨ (∃ es, kv.2 = SectionVal.flat es) ∨
      (∃ l p g, kv.2 = SectionVal.grouped (assembleGroups l p g)) := by
  unfold divStep at h
  dsimp only at h
  by_cases hrec : !(fixedTags.contains (letterOf dv))
  · rw [if_pos hrec] at h
    injection h with h1
    injection h1 with hs hb
    subst hs
    exact fun kv hkv => Or.inl hkv
  · rw [if_neg hrec] at h
    cases htr : dv.tableRows with
    | none =>
      rw [htr] at h
      injection h with h1
      injection h1 with hs hb
      subst hs
      intro kv hkv
      rcases mem_dictSet _ _ _ _ hkv with hnew | hold
      · subst hnew; exact Or.inr (Or.inl ⟨[], rfl⟩)
      · exact Or.inl hold
    | some trs =>
      rw [htr] at h
      dsimp only at h
      cases hf : ((trs.drop 1).reverse).foldlM (rowStep seen (letterOf dv))
          (([] : List Entry), ([] : List (String × String)), b) with
      | error m => rw [hf] at h; simp only [except_bind_error] at h; cases h
      | ok st =>
        obtain ⟨parsed, gmeta, batch⟩ := st
        rw [hf] at h
        simp only [except_bind_ok] at h
        by_cases hcp : ["C", "P"].contains (letterOf dv)
        · rw [if_pos hcp] at h
          injection h with h1
          injection h1 with hs hb
          subst hs
          intro kv hkv
          rcases mem_dictSet _ _ _ _ hkv with hnew | hold
          · subst hnew
            exact Or.inr (Or.inr ⟨letterOf dv, parsed, gmeta, rfl⟩)
          · exact Or.inl hold
        · rw [if_neg hcp] at h
          injection h with h1
          injection h1 with hs hb
          subst hs
          intro kv hkv
          rcases mem_dictSet _ _ _ _ hkv with hnew | hold
          · subst hnew; exact Or.inr (Or.inl ⟨parsed, rfl⟩)
          · exact Or.inl hold

/-! ### Claim C6 -/

/-- C6: in every successful result the groups of a grouped section are
ordered by the natural comparison (digit runs numeric, other runs
case-insensitively lexicographic, run by run), and concretely the keys C1,
C2, C10 come out in exactly that order, not the lexicographic one. -/
theorem group_keys_naturally_sorted :
    (∀ (c : ISIRChecker) (d : Document) (secs : List (String × SectionVal))
      (ci : List (String × String)) (c2 : ISIRChecker),
      fetch_and_parse c (.ok d) = (.success secs ci, c2) →
      ∀ kv ∈ secs, ∀ gs, kv.2 = SectionVal.grouped gs →
        (gs.map Group.group).Pairwise (fun a b => natKeyLe a b = true)) ∧
    ((fetch_and_parse ⟨∅⟩ (.ok docC6)).1 =
      .success [("C", SectionVal.grouped gsC6)] [] ∧
     gsC6.map Group.group = ["C1", "C2", "C10"] ∧
     gsC6.map Group.group ≠ ["C1", "C10", "C2"]) := by
  constructor
  · intro c d secs ci c2 h kv hkv gs hgs
    unfold fetch_and_parse at h
    dsimp only at h
    cases hp : parseBody c.seen_ids d with
    | error m => rw [hp] at h; cases h
    | ok t =>
      obtain ⟨s, ci1, b⟩ := t
      rw [hp] at h
      injection h with hr hc
      injection hr with hs hci
      subst hs
      unfold parseBody at hp
      dsimp only at hp
      cases hf : ((d.divs.filter fun dv =>
          startsWithL dv.id.toList "zalozka".toList).foldlM (divStep c.seen_ids)
            (([] : List (String × SectionVal)), (∅ : Finset String))) with
      | error m => rw [hf] at hp; simp only [except_bind_error] at hp; cases hp
      | ok st =>
        obtain ⟨s2, b2⟩ := st
        rw [hf] at hp
        simp only [except_bind_ok, Except.ok.injEq, Prod.mk.injEq] at hp
        obtain ⟨hs2, hcix, hbx⟩ := hp
        have hshape := foldlM_except_inv (divStep c.seen_ids)
          (fun st => ∀ kv ∈ st.1, (∃ es, kv.2 = SectionVal.flat es) ∨
            (∃ l p g, kv.2 = SectionVal.grouped (assembleGroups l p g)))
          (by
            rintro ⟨ss, bb⟩ dv ⟨ss2, bb2⟩ hq hstep
            intro kv hkv
            rcases divStep_val_shape c.seen_ids ss bb dv ss2 bb2 hstep kv hkv with
              hold | hflat | hgr
            · exact hq kv hold
            · exact Or.inl hflat
            · exact Or.inr hgr)
          _ ([], ∅) (s2, b2) (by intro kv hkv; cases hkv) hf
        rcases hshape kv (by rw [hs2]; exact hkv) with ⟨es, hes⟩ | ⟨l, p, g, hgr⟩
        · rw [hes] at hgs; cases hgs
        · rw [hgr] at hgs
          injection hgs with hgs1
          rw [← hgs1]
          exact assembleGroups_sorted l p g
  · exact ⟨rfl, rfl, by decide⟩

/-- Witness for C6, applying the sortedness part at `docC6`. -/
theorem group_keys_naturally_sorted_witness :
    (gsC6.map Group.group).Pairwise (fun a b => natKeyLe a b = true) :=
  group_keys_naturally_sorted.1 ⟨∅⟩ docC6 [("C", SectionVal.grouped gsC6)] [] _
    rfl ("C", SectionVal.grouped gsC6) (by decide) gsC6 rfl


/-! ### Claim C8 -/

theorem optOr_none (x : Option α) : optOr x none = x := by
  cases x <;> rfl

theorem optOr_assoc (x y z : Option α) : optOr (optOr x y) z = optOr x (optOr y z) := by
  cases x <;> cases y <;> rfl

theorem firstGroupMeta_nil (letter k : String) : firstGroupMeta letter [] k = none := rfl

theorem firstGroupMeta_cons (letter : String) (r : List Cell) (t : List (List Cell))
    (k : String) :
    firstGroupMeta letter (r :: t) k =
      optOr (rowMetaVal letter r k) (firstGroupMeta letter t k) := by
  unfold firstGroupMeta
  rw [List.findSome?_cons]
  cases h : rowMetaVal letter r k <;> rfl

/-- Characterization of `sectionMeta`'s dict output: reading key `k`
afterwards gives the old binding if any, else this row's contribution. -/
theorem sectionMeta_gmeta (letter : String) (cells : List Cell)
    (g : List (String × String)) (ai : String) (g2 : List (String × String))
    (hlen : ¬cells.length < 5)
    (h : sectionMeta letter cells (cells.getD 0 defaultCell).text g = .ok (ai, g2)) :
    ∀ k, dictGet? g2 k = optOr (dictGet? g k) (rowMetaVal letter cells k) := by
  intro k
  unfold sectionMeta at h
  unfold rowMetaVal
  rw [if_neg hlen]
  by_cases hC : (letter == "C" && decide (8 < cells.length)) = true
  · rw [if_pos hC] at h
    rw [if_pos (show ((letter == "C" && decide (8 < cells.length)) ||
        (letter == "P" && decide (6 < cells.length))) = true by rw [hC]; rfl)]
    cases hpy : cells.get? 8 with
    | none =>
      have hpyE : pyIndex cells 8 = .error "list index out of range" := by
        unfold pyIndex; rw [hpy]
      rw [hpyE] at h
      simp only [except_bind_error] at h
      cases h
    | some cell8 =>
      have hpyO : pyIndex cells 8 = .ok cell8 := by unfold pyIndex; rw [hpy]
      rw [hpyO] at h
      simp only [except_bind_ok] at h
      dsimp only
      by_cases hmark : (cell8.text != "" && !(["&nbsp;", ""].contains cell8.text)) = true
      · rw [if_pos hmark] at h
        cases hgk : groupKeyMatch letter ((cells.getD 0 defaultCell).text) with
        | some gk =>
          rw [hgk] at h
          dsimp only at h
          by_cases hhas : dictHas g gk = true
          · rw [if_pos hhas] at h
            simp only [Except.ok.injEq, Prod.mk.injEq] at h
            obtain ⟨hai, hg2⟩ := h
            rw [← hg2]
            cases hgv : dictGet? g k with
            | some w => rfl
            | none =>
              have hk : (some gk == some k) = false := by
                have hne : ¬gk = k := by
                  intro hc
                  rw [hc] at hhas
                  unfold dictHas at hhas
                  rw [hgv] at hhas
                  cases hhas
                simp [hne]
              simp only [optOr, hk, Bool.and_false, Bool.false_eq_true, if_false]
          · rw [if_neg hhas] at h
            simp only [Except.ok.injEq, Prod.mk.injEq] at h
            obtain ⟨hai, hg2⟩ := h
            rw [← hg2]
            rw [dictGet?_dictSet]
            by_cases hk : k = gk
            · rw [if_pos hk]
              rw [hk, dictHas_eq_false_get g gk (by simpa using hhas)]
              simp only [optOr]
              rw [if_pos (show ((cell8.text != "" &&
                  !(["&nbsp;", ""].contains cell8.text)) &&
                  ((some gk : Option String) == some gk)) = true from by rw [hmark]; simp)]
            · rw [if_neg hk]
              cases hgv : dictGet? g k with
              | some w => rfl
              | none =>
                have hkb : (some gk == some k) = false := by
                  simp
                  intro hc
                  exact hk hc.symm
                simp only [optOr, hkb, Bool.and_false, Bool.false_eq_true, if_false]
        | none =>
          rw [hgk] at h
          dsimp only at h
          injection h with hpair
          obtain ⟨hai, hg2⟩ := Prod.mk.injEq .. ▸ hpair
          rw [← hg2]
          cases hgv : dictGet? g k with
          | some w => rfl
          | none =>
            simp only [optOr]
            rw [if_neg]
            simp
      · rw [if_neg hmark] at h
        injection h with hpair
        obtain ⟨hai, hg2⟩ := Prod.mk.injEq .. ▸ hpair
        rw [← hg2]
        cases hgv : dictGet? g k with
        | some w => rfl
        | none =>
          have hmf : (cell8.text != "" && !(["&nbsp;", ""].contains cell8.text)) = false :=
            Bool.of_not_eq_true hmark
          simp only [optOr, hmf, Bool.false_and, Bool.false_eq_true, if_false]
  · rw [if_neg hC] at h
    by_cases hP : (letter == "P" && decide (6 < cells.length)) = true
    · rw [if_pos hP] at h
      rw [if_pos (show ((letter == "C" && decide (8 < cells.length)) ||
          (letter == "P" && decide (6 < cells.length))) = true by rw [hP]; simp)]
      cases hpy : cells.get? 8 with
      | none =>
        have hpyE : pyIndex cells 8 = .error "list index out of range" := by
          unfold pyIndex; rw [hpy]
        rw [hpyE] at h
        simp only [except_bind_error] at h
        cases h
      | some cell8 =>
        have hpyO : pyIndex cells 8 = .ok cell8 := by unfold pyIndex; rw [hpy]
        rw [hpyO] at h
        simp only [except_bind_ok] at h
        dsimp only
        by_cases hmark : (cell8.text != "" && !(["&nbsp;", ""].contains cell8.text)) = true
        · rw [if_pos hmark] at h
          cases hgk : groupKeyMatch letter ((cells.getD 0 defaultCell).text) with
          | some gk =>
            rw [hgk] at h
            dsimp only at h
            by_cases hhas : dictHas g gk = true
            · rw [if_pos hhas] at h
              simp only [Except.ok.injEq, Prod.mk.injEq] at h
              obtain ⟨hai, hg2⟩ := h
              rw [← hg2]
              cases hgv : dictGet? g k with
              | some w => rfl
              | none =>
                have hk : (some gk == some k) = false := by
                  have hne : ¬gk = k := by
                    intro hc
                    rw [hc] at hhas
                    unfold dictHas at hhas
                    rw [hgv] at hhas
                    cases hhas
                  simp [hne]
                simp only [optOr, hk, Bool.and_false, Bool.false_eq_true, if_false]
            · rw [if_neg hhas] at h
              simp only [Except.ok.injEq, Prod.mk.injEq] at h
              obtain ⟨hai, hg2⟩ := h
              rw [← hg2]
              rw [dictGet?_dictSet]
              by_cases hk : k = gk
              · rw [if_pos hk]
                rw [hk, dictHas_eq_false_get g gk (by simpa using hhas)]
                simp only [optOr]
                rw [if_pos (show ((cell8.text != "" &&
                    !(["&nbsp;", ""].contains cell8.text)) &&
                    ((some gk : Option String) == some gk)) = true from by rw [hmark]; simp)]
              · rw [if_neg hk]
                cases hgv : dictGet? g k with
                | some w => rfl
                | none =>
                  have hkb : (some gk == some k) = false := by
                    simp
                    intro hc
                    exact hk hc.symm
                  simp only [optOr, hkb, Bool.and_false, Bool.false_eq_true, if_false]
          | none =>
            rw [hgk] at h
            dsimp only at h
            injection h with hpair
            obtain ⟨hai, hg2⟩ := Prod.mk.injEq .. ▸ hpair
            rw [← hg2]
            cases hgv : dictGet? g k with
            | some w => rfl
            | none =>
              simp only [optOr]
              rw [if_neg]
              simp
        · rw [if_neg hmark] at h
          injection h with hpair
          obtain ⟨hai, hg2⟩ := Prod.mk.injEq .. ▸ hpair
          rw [← hg2]
          cases hgv : dictGet? g k with
          | some w => rfl
          | none =>
            have hmf : (cell8.text != "" && !(["&nbsp;", ""].contains cell8.text)) = false :=
              Bool.of_not_eq_true hmark
            simp only [optOr, hmf, Bool.false_and, Bool.false_eq_true, if_false]
    · rw [if_neg hP] at h
      injection h with hpair
      obtain ⟨hai, hg2⟩ := Prod.mk.injEq .. ▸ hpair
      rw [← hg2]
      rw [if_neg (show ¬((letter == "C" && decide (8 < cells.length)) ||
          (letter == "P" && decide (6 < cells.length))) = true by
        simp only [Bool.or_eq_true]
        rintro (hx | hx)
        · exact hC hx
        · exact hP hx)]
      rw [optOr_none]


/-- The same characterization for a whole `rowStep`. -/
theorem rowStep_gmeta (seen : Finset String) (letter : String)
    (es : List Entry) (g : List (String × String)) (b : Finset String)
    (cells : List Cell) (es2 : List Entry) (g2 : List (String × String)) (b2 : Finset String)
    (h : rowStep seen letter (es, g, b) cells = .ok (es2, g2, b2)) :
    ∀ k, dictGet? g2 k = optOr (dictGet? g k) (rowMetaVal letter cells k) := by
  intro k
  rcases rowStep_shape seen letter es g b cells es2 g2 b2 h with
    ⟨_, hg, _, hlt⟩ | ⟨hlen, e0, ai, hsm, _, _, _, _, _, _, _⟩
  · subst hg
    unfold rowMetaVal
    rw [if_pos hlt, optOr_none]
  · exact sectionMeta_gmeta letter cells g ai g2 (by omega) hsm k

/-- Over the whole row loop, the group-metadata dict binds each key to the
first contribution in processing order (on top of any initial binding). -/
theorem foldRows_gmeta (seen : Finset String) (letter : String) :
    ∀ (rows : List (List Cell)) (es : List Entry) (g : List (String × String))
      (b : Finset String) (es2 : List Entry) (g2 : List (String × String)) (b2 : Finset String),
      rows.foldlM (rowStep seen letter) (es, g, b) = .ok (es2, g2, b2) →
      ∀ k, dictGet? g2 k = optOr (dictGet? g k) (firstGroupMeta letter rows k) := by
  intro rows
  induction rows with
  | nil =>
    intro es g b es2 g2 b2 h k
    simp only [List.foldlM_nil, except_pure, Except.ok.injEq, Prod.mk.injEq] at h
    obtain ⟨-, hg, -⟩ := h
    rw [← hg, firstGroupMeta_nil, optOr_none]
  | cons r t ih =>
    intro es g b es2 g2 b2 h k
    rw [List.foldlM_cons] at h
    cases h1 : rowStep seen letter (es, g, b) r with
    | error m => rw [h1] at h; simp only [except_bind_error] at h; cases h
    | ok st1 =>
      obtain ⟨es1, g1, b1⟩ := st1
      rw [h1] at h
      simp only [except_bind_ok] at h
      rw [firstGroupMeta_cons, ih es1 g1 b1 es2 g2 b2 h k,
        rowStep_gmeta seen letter es g b r es1 g1 b1 h1 k, optOr_assoc]

/-- C8 counterexample: in `docC8` the C1 group's two rows carry metadata "X"
(first in source order) and "Y" (second in source order, i.e. first in
processing order); the group's metadata is "Y", not "X". -/
theorem group_metadata_not_source_order :
    (fetch_and_parse ⟨∅⟩ (.ok docC8)).1 =
      .success [("C", SectionVal.grouped
        [⟨"C1", [entMeta "C1 - 1." "Y", entMeta "C1 - 2." "X"], "Y"⟩])] [] ∧
    ("Y" : String) ≠ "X" :=
  ⟨rfl, by decide⟩

/-- C8 amended: a group's metadata is the `group_metadata` of the first
member in processing order — the reversed source order, oldest row first —
that carries a non-empty, non-placeholder value; later values for the same
group are ignored. -/
theorem group_metadata_first_in_processing_order :
    ∀ (seen : Finset String) (letter : String) (trs : List (List Cell))
      (parsed : List Entry) (gmeta : List (String × String)) (batch b0 : Finset String),
      ((trs.drop 1).reverse).foldlM (rowStep seen letter) ([], [], b0) =
        .ok (parsed, gmeta, batch) →
      ∀ gr ∈ assembleGroups letter parsed gmeta,
        gr.metadata = (firstGroupMeta letter ((trs.drop 1).reverse) gr.group).getD "" := by
  intro seen letter trs parsed gmeta batch b0 h gr hgr
  have hchar := foldRows_gmeta seen letter ((trs.drop 1).reverse) [] [] b0
    parsed gmeta batch h
  unfold assembleGroups at hgr
  obtain ⟨kname, hk, hkg⟩ := List.mem_map.mp hgr
  rw [← hkg]
  dsimp only
  rw [hchar kname, dictGet?_nil]
  rfl

/-- Witness for C8 amended at the `docC8` rows. -/
theorem group_metadata_first_in_processing_order_witness :
    (⟨"C1", [entMeta "C1 - 1." "Y", entMeta "C1 - 2." "X"], "Y"⟩ : Group).metadata =
      (firstGroupMeta "C" rowsC8 "C1").getD "" :=
  group_metadata_first_in_processing_order ∅ "C"
    [[], metaRow "C1 - 2." "X", metaRow "C1 - 1." "Y"]
    [entMeta "C1 - 1." "Y", entMeta "C1 - 2." "X"] [("C1", "Y")]
    (insert "C1 - 2." (insert "C1 - 1." ∅)) ∅ rfl
    ⟨"C1", [entMeta "C1 - 1." "Y", entMeta "C1 - 2." "X"], "Y"⟩ (by decide)

end ISIR
